import Mathlib

/-!
# Verification of brainmappy's mesh/segmentation fetch core

This file gives a shallow embedding of the core of the `brainmappy`
repository (files `brainmappy/io.py` and `brainmappy/fetch.py`) and proves
or refutes the specification claims about it.

Modelling conventions:
* Byte strings are `List Nat` (each entry a byte value `< 256`).
* Machine integers are `Nat`/`Int` with explicit two's-complement
  reinterpretation (`sIntOfBits`) where the Python code uses `struct`
  signed formats (`q`, `i`).
* The 4-byte IEEE-754 float payload of each vertex coordinate travels as
  its raw 32-bit little-endian word up to the final `.astype(int)` of
  `parse_raw_ng` (io.py line 267), which is modelled exactly: each word is
  read as `float32` and truncated toward zero to an `int64`
  (`f32TruncToInt` followed by `i64cast`).  The final `seg_ids.astype(int)`
  of `get_seg_at_location` (fetch.py line 542) is modelled the same way
  (`i64cast` of each float64 buffer entry).
* Python's `struct` uses NATIVE alignment for formats without a byte-order
  prefix: in `'{L}s2q'` the offset of the first `q` is padded to a
  multiple of 8, so `calcsize` is `roundup(L, 8) + 16` while the source
  reads only `L + 16` bytes — `struct.unpack` therefore raises for every
  label length that is not a multiple of 8 (`MErr.misaligned`).
* Fallible code returns `Except`; external collaborators (HTTP transport,
  the scipy clustering) enter as explicit parameters.
-/

namespace Brainmappy

/-- Value of a little-endian byte string (first byte least significant),
as produced by Python's `struct.unpack` on unsigned data. -/
def leVal (bs : List Nat) : Nat := bs.foldr (fun b acc => b + 256 * acc) 0

/-- Little-endian encoding of `v` on exactly `n` bytes (value taken mod `2^(8*n)`). -/
def leBytes : Nat → Nat → List Nat
  | 0, _ => []
  | n + 1, v => (v % 256) :: leBytes n (v / 256)

/-- Reinterpret an unsigned `w`-bit value as a signed (two's complement)
integer, as `struct.unpack` does for the signed formats `q` (w = 64) and
`i` (w = 32). -/
def sIntOfBits (w : Nat) (v : Nat) : Int :=
  if v < 2 ^ (w - 1) then (v : Int) else (v : Int) - 2 ^ w

/-- Read exactly `n` bytes from the stream: `f.read(n)` followed by a
`struct.unpack` whose format needs all `n` bytes (`struct` raises if the
stream held fewer). Returns the bytes read and the remaining stream. -/
def takeExact (n : Nat) (bs : List Nat) : Option (List Nat × List Nat) :=
  if n ≤ bs.length then some (bs.take n, bs.drop n) else none

/-- Split a byte string into consecutive 4-byte little-endian words
(any trailing group of fewer than 4 bytes is impossible at the call sites,
which always pass a multiple of 4 bytes). -/
def leWords : List Nat → List Nat
  | b0 :: b1 :: b2 :: b3 :: rest => leVal [b0, b1, b2, b3] :: leWords rest
  | _ => []

/-- Group a flat list into consecutive triples, as `np.reshape((n, 3))`
does for a flat array of length `3 * n`. -/
def triples {α : Type} : List α → List (α × α × α)
  | a :: b :: c :: rest => (a, b, c) :: triples rest
  | _ => []

lemma leBytes_length (n v : Nat) : (leBytes n v).length = n := by
  induction n generalizing v with
  | zero => rfl
  | succ n ih => simp [leBytes, ih]

lemma leVal_leBytes (n v : Nat) (h : v < 2 ^ (8 * n)) : leVal (leBytes n v) = v := by
  induction n generalizing v with
  | zero =>
    simp [leBytes, leVal]
    omega
  | succ n ih =>
    have hlt : v / 256 < 2 ^ (8 * n) := by
      have h256 : (256 : Nat) = 2 ^ 8 := by norm_num
      rw [Nat.div_lt_iff_lt_mul (by norm_num)]
      calc v < 2 ^ (8 * (n + 1)) := h
        _ = 2 ^ (8 * n) * 2 ^ 8 := by ring
        _ = 2 ^ (8 * n) * 256 := by norm_num
    have := ih (v / 256) hlt
    simp only [leBytes, leVal, List.foldr] at this ⊢
    rw [this]
    omega

lemma takeExact_eq_some {n : Nat} {bs pre post : List Nat}
    (h : takeExact n bs = some (pre, post)) :
    pre = bs.take n ∧ post = bs.drop n ∧ n ≤ bs.length := by
  unfold takeExact at h
  by_cases hle : n ≤ bs.length
  · simp [hle] at h
    exact ⟨h.1.symm, h.2.symm, hle⟩
  · simp [hle] at h

lemma takeExact_append (pre rest : List Nat) :
    takeExact pre.length (pre ++ rest) = some (pre, rest) := by
  unfold takeExact
  simp

/-! ## The wire format (spec §4.1) and the decoder `parse_raw_ng` (io.py) -/

/-- One wire-level fragment record, before encoding.  Vertex coordinates are
kept as their raw 32-bit words (see the module docstring); face indices are
the 32-bit integers on the wire. -/
structure MeshFragment where
  objectId : Nat
  label : List Nat
  verts : List (Nat × Nat × Nat)
  faces : List (Nat × Nat × Nat)
  deriving DecidableEq, Repr

/-- Encode one 32-bit word triple (a vertex, or a face index triple). -/
def encodeTriple (t : Nat × Nat × Nat) : List Nat :=
  leBytes 4 t.1 ++ leBytes 4 t.2.1 ++ leBytes 4 t.2.2

/-- Encode one fragment record per the wire layout stated in the spec:
8-byte object id, 4-byte label length, 4 pad bytes, label, 8-byte vertex
count, 8-byte face count, vertex words, face words (all little-endian). -/
def encodeFragment (f : MeshFragment) : List Nat :=
  leBytes 8 f.objectId ++ leBytes 4 f.label.length ++ [0, 0, 0, 0] ++ f.label ++
    leBytes 8 f.verts.length ++ leBytes 8 f.faces.length ++
    (f.verts.map encodeTriple).flatten ++ (f.faces.map encodeTriple).flatten

/-- Encode a whole stream: zero or more concatenated fragment records. -/
def encodeStream (fs : List MeshFragment) : List Nat :=
  (fs.map encodeFragment).flatten

/-- Well-formedness of a fragment with respect to the wire format's field
widths and the decoder's platform constraints: every field fits its
(signed, where `struct` says so) slot; the label length is a multiple of 8,
since otherwise `struct.unpack('{L}s2q', f.read(L + 16))` raises (the
native-alignment `calcsize` is `roundup(L, 8) + 16`, more than the `L + 16`
bytes read); and every vertex word's float32 exponent field is at most 189,
i.e. the word encodes a finite value whose integer truncation fits in
`int64`, keeping the final `.astype(int)` inside numpy-defined behaviour. -/
def WFFragment (f : MeshFragment) : Prop :=
  f.objectId < 2 ^ 63 ∧ f.label.length < 2 ^ 31 ∧ f.label.length % 8 = 0 ∧
    f.verts.length < 2 ^ 63 ∧ f.faces.length < 2 ^ 63 ∧
    (∀ t ∈ f.verts, t.1 < 2 ^ 32 ∧ t.2.1 < 2 ^ 32 ∧ t.2.2 < 2 ^ 32) ∧
    (∀ t ∈ f.verts, t.1 / 2 ^ 23 % 2 ^ 8 ≤ 189 ∧ t.2.1 / 2 ^ 23 % 2 ^ 8 ≤ 189 ∧
      t.2.2 / 2 ^ 23 % 2 ^ 8 ≤ 189) ∧
    (∀ t ∈ f.faces, t.1 < 2 ^ 31 ∧ t.2.1 < 2 ^ 31 ∧ t.2.2 < 2 ^ 31)

instance (f : MeshFragment) : Decidable (WFFragment f) := by
  unfold WFFragment; infer_instance

/-- Decoder errors.  `truncated` models `struct.error` on a short read,
`misaligned` the `struct.error` of `unpack('{L}s2q', f.read(L + 16))` when
the label length `L` is not a multiple of 8 (native alignment makes
`calcsize` equal `roundup(L, 8) + 16`, so the `L + 16`-byte buffer never
fits), `badField` a negative declared length/count (the resulting
negative-size `struct` format raises), `noFragments` the crash on an empty
stream (`np.vstack` of an empty list / unbound `object_id`), and `fuelOut`
is an artificial constructor of the fuel-indexed loop, proved unreachable
below. -/
inductive MErr
  | truncated
  | misaligned
  | badField
  | noFragments
  | fuelOut
  deriving DecidableEq, Repr

/-- One decoded record as accumulated inside the `while` loop of
`parse_raw_ng`: object id (signed, per format `q`), filename bytes, raw
vertex words, and face index triples as signed ints (format `i`). -/
structure DecRecord where
  objectId : Int
  filename : List Nat
  verts : List (Nat × Nat × Nat)
  faces : List (Int × Int × Int)
  deriving DecidableEq, Repr

/-- Offset a face triple by `d`, as `this_faces + offset` does elementwise. -/
def shiftTriple (d : Int) (t : Int × Int × Int) : Int × Int × Int :=
  (t.1 + d, t.2.1 + d, t.2.2 + d)

/-- Read one fragment record from the head of the stream, returning it and
the unconsumed remainder.  Mirrors one iteration of the `while` loop of
`parse_raw_ng`:
`object_id, filenamelen = struct.unpack('qi4x', f.read(16))`, then
`fn, n_verts, n_faces = struct.unpack('{L}s2q', f.read(L + 16))`, then the
`{3V}f` vertex read and `{3F}i` face read.  A negative declared length or
count makes the `struct` format invalid (error); a label length that is not
a multiple of 8 makes the second unpack raise, since under native alignment
`calcsize('{L}s2q') = roundup(L, 8) + 16` exceeds the `L + 16` bytes read
(`'qi4x'`, `'{k}f'` and `'{k}i'` need no padding and are unaffected); and a
short read makes `struct.unpack` raise (error). -/
def readRecord (bs : List Nat) : Except MErr (DecRecord × List Nat) :=
  match takeExact 16 bs with
  | none => .error .truncated
  | some (hdr, r1) =>
    let objectId := sIntOfBits 64 (leVal (hdr.take 8))
    let filenamelen := sIntOfBits 32 (leVal ((hdr.drop 8).take 4))
    if filenamelen < 0 then .error .badField
    else if filenamelen.toNat % 8 ≠ 0 then .error .misaligned
    else
      match takeExact (filenamelen.toNat + 16) r1 with
      | none => .error .truncated
      | some (mid, r2) =>
        let fn := mid.take filenamelen.toNat
        let nVerts := sIntOfBits 64 (leVal ((mid.drop filenamelen.toNat).take 8))
        let nFaces := sIntOfBits 64 (leVal ((mid.drop (filenamelen.toNat + 8)).take 8))
        if nVerts < 0 ∨ nFaces < 0 then .error .badField
        else
          match takeExact (nVerts.toNat * 3 * 4) r2 with
          | none => .error .truncated
          | some (vbytes, r3) =>
            match takeExact (nFaces.toNat * 3 * 4) r3 with
            | none => .error .truncated
            | some (fbytes, rest) =>
              .ok (⟨objectId, fn, triples (leWords vbytes),
                    triples ((leWords fbytes).map (sIntOfBits 32))⟩, rest)

/-- The decoding loop of `parse_raw_ng` (fuel-indexed; fuel = remaining
byte count always suffices, see `parseLoopF_fuel`).  `accVerts` is the
number of vertices of previously parsed records,
`sum([v.shape[0] for v in verts])` in the source: each record's faces are
stored with that offset added (`faces.append(this_faces + ...)`,
io.py lines 262-263). -/
def parseLoopF : Nat → Nat → List Nat → Except MErr (List DecRecord)
  | _, _, [] => .ok []
  | 0, _, _ :: _ => .error .fuelOut
  | fuel + 1, accVerts, b :: bs =>
    match readRecord (b :: bs) with
    | .error e => .error e
    | .ok (r, rest) =>
      match parseLoopF fuel (accVerts + r.verts.length) rest with
      | .error e => .error e
      | .ok recs =>
        .ok ({ r with faces := r.faces.map (shiftTriple (accVerts : Int)) } :: recs)

/-- Saturating conversion of an integer into the `int64` range, modelling
the C-level float→int64 conversion behind numpy's `.astype(int)`: values
inside `[-2^63, 2^63)` convert exactly; outside that range the conversion
is undefined behaviour at C level, and numpy on the mainstream platforms
(x86-64, aarch64) yields `INT64_MIN`, which this model adopts.  Theorems
that pin exact values restrict to in-range inputs (see `WFFragment` and the
`f64round _ < 2^63` hypotheses) and never rely on the saturating branch. -/
def i64cast (x : Int) : Int :=
  if -(2 ^ 63) ≤ x ∧ x < 2 ^ 63 then x else -(2 ^ 63)

/-- Truncation toward zero of the IEEE-754 binary32 value whose bit pattern
is the 32-bit word `w` (sign bit 31, 8 exponent bits, 23 fraction bits): a
normal number is `±(2^23 + m) * 2^(e - 150)` and truncates to the floor of
its magnitude with the sign reapplied; a subnormal (`e = 0`) has magnitude
below 1 and truncates to 0; `e = 255` (±inf/NaN) produces the huge
`(2^23 + m) * 2^105`, far outside `int64` and saturated by `i64cast`. -/
def f32TruncToInt (w : Nat) : Int :=
  let s := w / 2 ^ 31 % 2
  let e := w / 2 ^ 23 % 2 ^ 8
  let m := w % 2 ^ 23
  let mag : Nat :=
    if e = 0 then 0
    else if e < 150 then (2 ^ 23 + m) / 2 ^ (150 - e)
    else (2 ^ 23 + m) * 2 ^ (e - 150)
  if s = 0 then (mag : Int) else -(mag : Int)

/-- The `.astype(int)` cast of one stacked vertex row (io.py line 267):
each raw 32-bit word is read as `float32` and truncated to an `int64`. -/
def intVert (t : Nat × Nat × Nat) : Int × Int × Int :=
  (i64cast (f32TruncToInt t.1), i64cast (f32TruncToInt t.2.1),
   i64cast (f32TruncToInt t.2.2))

/-- The full decoded result of `parse_raw_ng`: the `object_id` left in the
loop variable after the `while` loop (i.e. the LAST record's id), the list
of filenames, the stacked vertices after the final `.astype(int)` cast
(`np.vstack(verts).astype(int)`: each raw float32 word truncated to an
integer, see `intVert`) and the stacked, offset-adjusted faces
(`np.vstack(faces)`). -/
structure ParsedStream where
  objectId : Int
  filenames : List (List Nat)
  verts : List (Int × Int × Int)
  faces : List (Int × Int × Int)
  deriving DecidableEq, Repr

/-- `parse_raw_ng` (io.py lines 238-267) on a byte string.  An empty record
list makes the final `return` line raise (`object_id` unbound and
`np.vstack` of an empty list), modelled as `MErr.noFragments`. -/
def parse_raw_ng (bs : List Nat) : Except MErr ParsedStream :=
  match parseLoopF bs.length 0 bs with
  | .error e => .error e
  | .ok [] => .error .noFragments
  | .ok (r :: rs) =>
    .ok ⟨((r :: rs).getLastD r).objectId, (r :: rs).map DecRecord.filename,
         (((r :: rs).map DecRecord.verts).flatten).map intVert,
         ((r :: rs).map DecRecord.faces).flatten⟩

/-! ## Round-trip lemmas: decoding an encoded stream -/

lemma sIntOfBits_of_lt {w v : Nat} (h : v < 2 ^ (w - 1)) : sIntOfBits w v = v := by
  simp [sIntOfBits, h]

lemma leWords_leBytes4 (x : Nat) (hx : x < 2 ^ 32) (l : List Nat) :
    leWords (leBytes 4 x ++ l) = x :: leWords l := by
  have h4 : leBytes 4 x =
      [x % 256, x / 256 % 256, x / 256 / 256 % 256, x / 256 / 256 / 256 % 256] := rfl
  have hv : leVal (leBytes 4 x) = x := leVal_leBytes 4 x (by simpa using hx)
  rw [h4] at hv ⊢
  simp only [List.cons_append, List.nil_append, leWords]
  rw [show leVal [x % 256, x / 256 % 256, x / 256 / 256 % 256, x / 256 / 256 / 256 % 256]
        = x from hv]
  simp [leWords]

/-- A triple section (`{3n}f` or `{3n}i` payload) has `12 * n` bytes. -/
lemma encTriples_length (ts : List (Nat × Nat × Nat)) :
    ((ts.map encodeTriple).flatten).length = 12 * ts.length := by
  induction ts with
  | nil => simp
  | cons t ts ih =>
    simp only [List.map_cons, List.flatten_cons, List.length_append, ih, encodeTriple,
      leBytes_length, List.length_cons]
    omega

lemma leWords_encTriples (ts : List (Nat × Nat × Nat))
    (h : ∀ t ∈ ts, t.1 < 2 ^ 32 ∧ t.2.1 < 2 ^ 32 ∧ t.2.2 < 2 ^ 32) :
    leWords ((ts.map encodeTriple).flatten) =
      (ts.map (fun t => [t.1, t.2.1, t.2.2])).flatten := by
  induction ts with
  | nil => rfl
  | cons t ts ih =>
    obtain ⟨a, b, c⟩ := t
    obtain ⟨ha, hb, hc⟩ := h _ (List.mem_cons_self _ _)
    simp only [List.map_cons, List.flatten_cons, encodeTriple, List.append_assoc]
    rw [leWords_leBytes4 a ha, leWords_leBytes4 b hb, leWords_leBytes4 c hc,
      ih (fun t ht => h t (List.mem_cons_of_mem _ ht))]
    simp

lemma triples_flatten3 {α : Type} (ts : List (α × α × α)) :
    triples ((ts.map (fun t => [t.1, t.2.1, t.2.2])).flatten) = ts := by
  induction ts with
  | nil => rfl
  | cons t ts ih =>
    obtain ⟨a, b, c⟩ := t
    simpa [triples] using ih

lemma triples_map_flatten3 {α β : Type} (g : α → β) (ts : List (α × α × α)) :
    triples (((ts.map (fun t => [t.1, t.2.1, t.2.2])).flatten).map g) =
      ts.map (fun t => (g t.1, g t.2.1, g t.2.2)) := by
  induction ts with
  | nil => rfl
  | cons t ts ih =>
    obtain ⟨a, b, c⟩ := t
    simpa [triples] using ih

/-- Natural-number triple seen as an integer triple (decoding of in-range
32-bit face words). -/
def intTriple (t : Nat × Nat × Nat) : Int × Int × Int :=
  ((t.1 : Int), (t.2.1 : Int), (t.2.2 : Int))

/-- Reading one record off an encoded well-formed fragment recovers its
fields exactly and leaves the remainder of the stream untouched. -/
lemma readRecord_encode (f : MeshFragment) (hf : WFFragment f) (rest : List Nat) :
    readRecord (encodeFragment f ++ rest) =
      .ok (⟨(f.objectId : Int), f.label, f.verts, f.faces.map intTriple⟩, rest) := by
  obtain ⟨hoid, hlab, halign, hnv, hnf, hvb, _, hfb⟩ := hf
  set hdr := leBytes 8 f.objectId ++ leBytes 4 f.label.length ++ [0, 0, 0, 0] with hhdr
  set mid := f.label ++ leBytes 8 f.verts.length ++ leBytes 8 f.faces.length with hmid
  set vsec := (f.verts.map encodeTriple).flatten with hvsec
  set fsec := (f.faces.map encodeTriple).flatten with hfsec
  have hsplit : encodeFragment f ++ rest = hdr ++ (mid ++ (vsec ++ (fsec ++ rest))) := by
    simp [encodeFragment, hhdr, hmid, hvsec, hfsec, List.append_assoc]
  have e1 : takeExact 16 (encodeFragment f ++ rest) =
      some (hdr, mid ++ (vsec ++ (fsec ++ rest))) := by
    rw [hsplit, show (16 : Nat) = hdr.length by simp [hhdr, leBytes_length]]
    exact takeExact_append _ _
  have hhdr8 : hdr.take 8 = leBytes 8 f.objectId := by
    rw [hhdr, List.append_assoc]
    exact List.take_left' (by simp [leBytes_length])
  have hhdr4 : (hdr.drop 8).take 4 = leBytes 4 f.label.length := by
    rw [hhdr, List.append_assoc, List.drop_left'
      (show (leBytes 8 f.objectId).length = 8 by simp [leBytes_length])]
    exact List.take_left' (by simp [leBytes_length])
  have hoidv : sIntOfBits 64 (leVal (hdr.take 8)) = (f.objectId : Int) := by
    rw [hhdr8, leVal_leBytes 8 f.objectId (by norm_num; omega)]
    exact sIntOfBits_of_lt (by norm_num; omega)
  have hlenv : sIntOfBits 32 (leVal ((hdr.drop 8).take 4)) = (f.label.length : Int) := by
    rw [hhdr4, leVal_leBytes 4 f.label.length (by norm_num; omega)]
    exact sIntOfBits_of_lt (by norm_num; omega)
  have e2 : takeExact ((f.label.length : Int).toNat + 16) (mid ++ (vsec ++ (fsec ++ rest))) =
      some (mid, vsec ++ (fsec ++ rest)) := by
    rw [show ((f.label.length : Int).toNat + 16) = mid.length by
      simp [hmid, leBytes_length]]
    exact takeExact_append _ _
  have hfn : mid.take (f.label.length : Int).toNat = f.label := by
    rw [hmid, List.append_assoc]
    exact List.take_left' (by simp)
  have hnvv : sIntOfBits 64 (leVal ((mid.drop (f.label.length : Int).toNat).take 8)) =
      (f.verts.length : Int) := by
    rw [hmid, List.append_assoc, List.drop_left' (show f.label.length = (f.label.length : Int).toNat by simp),
      List.take_left' (show (leBytes 8 f.verts.length).length = 8 by simp [leBytes_length]),
      leVal_leBytes 8 f.verts.length (by norm_num; omega)]
    exact sIntOfBits_of_lt (by norm_num; omega)
  have hnfv : sIntOfBits 64 (leVal ((mid.drop ((f.label.length : Int).toNat + 8)).take 8)) =
      (f.faces.length : Int) := by
    have hmid2 : mid = (f.label ++ leBytes 8 f.verts.length) ++ leBytes 8 f.faces.length := by
      rw [hmid]
    rw [hmid2, List.drop_left' (show (f.label ++ leBytes 8 f.verts.length).length =
          (f.label.length : Int).toNat + 8 by simp [leBytes_length]),
      List.take_of_length_le (by simp [leBytes_length]),
      leVal_leBytes 8 f.faces.length (by norm_num; omega)]
    exact sIntOfBits_of_lt (by norm_num; omega)
  have e3 : takeExact ((f.verts.length : Int).toNat * 3 * 4) (vsec ++ (fsec ++ rest)) =
      some (vsec, fsec ++ rest) := by
    rw [show ((f.verts.length : Int).toNat * 3 * 4) = vsec.length by
      rw [hvsec, encTriples_length]; simp; ring]
    exact takeExact_append _ _
  have e4 : takeExact ((f.faces.length : Int).toNat * 3 * 4) (fsec ++ rest) =
      some (fsec, rest) := by
    rw [show ((f.faces.length : Int).toNat * 3 * 4) = fsec.length by
      rw [hfsec, encTriples_length]; simp; ring]
    exact takeExact_append _ _
  have hverts : triples (leWords vsec) = f.verts := by
    rw [hvsec, leWords_encTriples _ hvb, triples_flatten3]
  have hfaces : triples ((leWords fsec).map (sIntOfBits 32)) = f.faces.map intTriple := by
    rw [hfsec, leWords_encTriples _ (fun t ht => by
      obtain ⟨h1, h2, h3⟩ := hfb t ht
      exact ⟨by omega, by omega, by omega⟩), triples_map_flatten3]
    refine List.map_congr_left (fun t ht => ?_)
    obtain ⟨h1, h2, h3⟩ := hfb t ht
    simp [intTriple, sIntOfBits_of_lt (show t.1 < 2 ^ (32 - 1) by omega),
      sIntOfBits_of_lt (show t.2.1 < 2 ^ (32 - 1) by omega),
      sIntOfBits_of_lt (show t.2.2 < 2 ^ (32 - 1) by omega)]
  unfold readRecord
  rw [e1]
  dsimp only
  rw [hlenv, hoidv]
  rw [if_neg (show ¬((f.label.length : Int) < 0) by omega)]
  rw [if_neg (show ¬(((f.label.length : Int)).toNat % 8 ≠ 0) by simp [halign])]
  rw [e2]
  dsimp only
  rw [hfn, hnvv, hnfv]
  rw [if_neg (show ¬((f.verts.length : Int) < 0 ∨ (f.faces.length : Int) < 0) by omega)]
  rw [e3]
  dsimp only
  rw [e4]
  dsimp only
  rw [hverts, hfaces]

/-- Total vertex count of a fragment list. -/
def sumVerts (fs : List MeshFragment) : Nat := (fs.map (fun f => f.verts.length)).sum

/-- The record list `parse_raw_ng`'s loop produces for an encoded stream of
well-formed fragments when `acc` vertices were already seen: fragment k's
decoded faces are its wire faces shifted by `acc` plus the vertex count of
the fragments preceding it in the stream. -/
def decodedRecs (acc : Nat) : List MeshFragment → List DecRecord
  | [] => []
  | f :: fs =>
    ⟨(f.objectId : Int), f.label, f.verts,
      (f.faces.map intTriple).map (shiftTriple (acc : Int))⟩ ::
      decodedRecs (acc + f.verts.length) fs

lemma parseLoopF_cons (fuel acc : Nat) (bs : List Nat) (hbs : bs ≠ []) :
    parseLoopF (fuel + 1) acc bs =
      match readRecord bs with
      | .error e => .error e
      | .ok (r, rest) =>
        match parseLoopF fuel (acc + r.verts.length) rest with
        | .error e => .error e
        | .ok recs =>
          .ok ({ r with faces := r.faces.map (shiftTriple (acc : Int)) } :: recs) := by
  cases bs with
  | nil => exact absurd rfl hbs
  | cons b bs => rfl

lemma encodeFragment_length (f : MeshFragment) :
    (encodeFragment f).length =
      32 + f.label.length + 12 * f.verts.length + 12 * f.faces.length := by
  simp only [encodeFragment, List.length_append, encTriples_length, leBytes_length,
    List.length_cons, List.length_nil]
  omega

lemma encodeFragment_ne_nil (f : MeshFragment) (l : List Nat) :
    encodeFragment f ++ l ≠ [] := by
  apply List.ne_nil_of_length_pos
  simp [encodeFragment_length]

lemma length_le_encodeStream (fs : List MeshFragment) :
    fs.length ≤ (encodeStream fs).length := by
  induction fs with
  | nil => simp [encodeStream]
  | cons f fs ih =>
    have : encodeStream (f :: fs) = encodeFragment f ++ encodeStream fs := by
      simp [encodeStream]
    rw [this, List.length_append, encodeFragment_length]
    simp only [List.length_cons]
    omega

lemma parseLoopF_encodeStream (fs : List MeshFragment) (hwf : ∀ f ∈ fs, WFFragment f)
    (acc fuel : Nat) (hfuel : fs.length ≤ fuel) :
    parseLoopF fuel acc (encodeStream fs) = .ok (decodedRecs acc fs) := by
  induction fs generalizing acc fuel with
  | nil => cases fuel <;> rfl
  | cons f fs ih =>
    obtain ⟨fuel, rfl⟩ : ∃ n, fuel = n + 1 :=
      ⟨fuel - 1, by simp at hfuel; omega⟩
    have henc : encodeStream (f :: fs) = encodeFragment f ++ encodeStream fs := by
      simp [encodeStream]
    rw [henc, parseLoopF_cons _ _ _ (encodeFragment_ne_nil f _),
      readRecord_encode f (hwf f (List.mem_cons_self _ _)) (encodeStream fs)]
    dsimp only
    rw [ih (fun g hg => hwf g (List.mem_cons_of_mem _ hg)) (acc + f.verts.length) fuel
      (by simp at hfuel; omega)]
    rfl

lemma decodedRecs_map_filename (acc : Nat) (fs : List MeshFragment) :
    (decodedRecs acc fs).map DecRecord.filename = fs.map MeshFragment.label := by
  induction fs generalizing acc with
  | nil => rfl
  | cons f fs ih => simp [decodedRecs, ih]

lemma decodedRecs_map_verts (acc : Nat) (fs : List MeshFragment) :
    (decodedRecs acc fs).map DecRecord.verts = fs.map MeshFragment.verts := by
  induction fs generalizing acc with
  | nil => rfl
  | cons f fs ih => simp [decodedRecs, ih]

lemma decodedRecs_length (acc : Nat) (fs : List MeshFragment) :
    (decodedRecs acc fs).length = fs.length := by
  induction fs generalizing acc with
  | nil => rfl
  | cons f fs ih => simp [decodedRecs, ih]

lemma decodedRecs_getLastD (acc : Nat) (fs : List MeshFragment) (hne : fs ≠ [])
    (d : DecRecord) :
    ((decodedRecs acc fs).getLastD d).objectId = ((fs.getLast hne).objectId : Int) := by
  induction fs generalizing acc d with
  | nil => exact absurd rfl hne
  | cons f fs ih =>
    cases fs with
    | nil => simp [decodedRecs]
    | cons g gs =>
      rw [show decodedRecs acc (f :: g :: gs) =
          ⟨(f.objectId : Int), f.label, f.verts,
            (f.faces.map intTriple).map (shiftTriple (acc : Int))⟩ ::
            decodedRecs (acc + f.verts.length) (g :: gs) from rfl,
        List.getLastD_cons, ih (acc + f.verts.length) (List.cons_ne_nil _ _) _,
        List.getLast_cons (List.cons_ne_nil _ _)]

/-- Full decoding of an encoded nonempty stream of well-formed fragments:
the returned object id is the LAST record's, filenames are recovered
exactly, vertices come back as the float32-truncated integers of the wire
words (`.astype(int)`), and faces come back with the running intra-stream
vertex offset already added. -/
lemma parse_raw_ng_encodeStream (fs : List MeshFragment) (hwf : ∀ f ∈ fs, WFFragment f)
    (hne : fs ≠ []) :
    parse_raw_ng (encodeStream fs) =
      .ok ⟨((fs.getLast hne).objectId : Int), fs.map MeshFragment.label,
           ((fs.map MeshFragment.verts).flatten).map intVert,
           ((decodedRecs 0 fs).map DecRecord.faces).flatten⟩ := by
  unfold parse_raw_ng
  rw [parseLoopF_encodeStream fs hwf 0 _ (length_le_encodeStream fs)]
  cases hrec : decodedRecs 0 fs with
  | nil =>
    have := decodedRecs_length 0 fs
    rw [hrec] at this
    cases fs with
    | nil => exact absurd rfl hne
    | cons f fs => simp at this
  | cons r rs =>
    dsimp only
    have h1 : ((r :: rs).getLastD r).objectId = ((fs.getLast hne).objectId : Int) := by
      rw [← hrec]
      exact decodedRecs_getLastD 0 fs hne r
    have h2 : (r :: rs).map DecRecord.filename = fs.map MeshFragment.label := by
      rw [← hrec]; exact decodedRecs_map_filename 0 fs
    have h3 : (r :: rs).map DecRecord.verts = fs.map MeshFragment.verts := by
      rw [← hrec]; exact decodedRecs_map_verts 0 fs
    rw [h1, h2, h3, ← hrec]

/-! ## Chunk slicing: `for i in range(0, len(l), cap): l[i : i + cap]` -/

/-- The consecutive slices `l[i : i + cap]` for `i in range(0, len(l), cap)`:
`ceil(len/cap)` slices of at most `cap` elements each.  `get_meshes_batch`
uses cap 100; `get_seg_at_location` uses cap 200 on each spatial cluster. -/
def slices {α : Type} (cap : Nat) (l : List α) : List (List α) :=
  (List.range ((l.length + (cap - 1)) / cap)).map fun i => (l.drop (cap * i)).take cap

lemma slices_nil {α : Type} (cap : Nat) : slices cap ([] : List α) = [] := by
  rcases Nat.eq_zero_or_pos cap with h | h
  · subst h; simp [slices]
  · simp [slices, Nat.div_eq_of_lt (show cap - 1 < cap by omega)]

lemma slices_length {α : Type} (cap : Nat) (l : List α) :
    (slices cap l).length = (l.length + (cap - 1)) / cap := by
  simp [slices]

lemma slices_cons {α : Type} (cap : Nat) (hcap : 0 < cap) (l : List α) (hl : l ≠ []) :
    slices cap l = l.take cap :: slices cap (l.drop cap) := by
  have hM : 1 ≤ l.length := List.length_pos.mpr hl
  have hcount : (l.length + (cap - 1)) / cap =
      ((l.drop cap).length + (cap - 1)) / cap + 1 := by
    rw [List.length_drop]
    rcases le_or_lt l.length cap with h | h
    · have h1 : l.length - cap = 0 := by omega
      have e0 : (cap - 1) / cap = 0 := Nat.div_eq_of_lt (by omega)
      have e1 : (l.length + (cap - 1)) / cap = 1 :=
        @Nat.div_eq_of_lt_le 1 cap (l.length + (cap - 1)) (by omega) (by omega)
      rw [h1, Nat.zero_add, e0, e1]
    · have h2 : l.length + (cap - 1) = (l.length - cap + (cap - 1)) + cap := by omega
      rw [h2, Nat.add_div_right _ hcap]
  unfold slices
  rw [hcount, List.range_succ_eq_map, List.map_cons, Nat.mul_zero, List.drop_zero,
    List.map_map]
  congr 1
  refine List.map_congr_left (fun i _ => ?_)
  simp only [Function.comp_apply, List.drop_drop]
  congr 2
  rw [Nat.succ_eq_add_one, Nat.mul_add, Nat.mul_one, Nat.add_comm]

lemma slices_flatten {α : Type} (cap : Nat) (hcap : 0 < cap) (l : List α) :
    (slices cap l).flatten = l := by
  suffices h : ∀ n (l : List α), l.length ≤ n → (slices cap l).flatten = l from
    h l.length l le_rfl
  intro n
  induction n with
  | zero =>
    intro l h
    have : l = [] := List.eq_nil_of_length_eq_zero (by omega)
    subst this
    simp [slices_nil]
  | succ n ih =>
    intro l h
    by_cases hl : l = []
    · subst hl; simp [slices_nil]
    · rw [slices_cons cap hcap l hl, List.flatten_cons,
        ih (l.drop cap) (by simp [List.length_drop]; have := List.length_pos.mpr hl; omega)]
      exact List.take_append_drop cap l

lemma slices_mem_length_le {α : Type} (cap : Nat) (l : List α) (c : List α)
    (hc : c ∈ slices cap l) : c.length ≤ cap := by
  simp only [slices, List.mem_map, List.mem_range] at hc
  obtain ⟨i, _, rfl⟩ := hc
  simp [List.length_take]

/-! ## Fragment batch fetcher/merger: `get_fragments`, `get_meshes_batch` -/

/-- Errors of the fetch layer.  `transport e` wraps an HTTP error raised by
the authenticated transport collaborator (modelled from the spec, §6: the
transport raises on non-2xx status; the status code is carried unchanged),
`noFragments` is the `ValueError` of `get_fragments` on a falsy listing
response, and `decode e` is a `parse_raw_ng` failure on a response body. -/
inductive FetchErr
  | transport (status : Nat)
  | noFragments
  | decode (e : MErr)
  deriving DecidableEq, Repr

/-- Payload of one mesh-batch POST:
`[{'object_id': ob, 'fragment_keys': [fr]} for (ob, fr) in chunk]`. -/
def meshPayload (chunk : List (Nat × List Nat)) : List (Nat × List (List Nat)) :=
  chunk.map (fun p => (p.1, [p.2]))

/-- Merged mesh state: stacked `.astype(int)`-cast vertices and stacked
integer faces. -/
abbrev Mesh := List (Int × Int × Int) × List (Int × Int × Int)

/-- One merge step of `get_meshes_batch` (fetch.py lines 414-416):
`faces = f if faces is None else np.append(faces, f + verts.shape[0], axis=0)`
then `verts = v if verts is None else np.append(verts, v, axis=0)` — the
offset added to the new faces is the vertex count accumulated so far. -/
def mergeStep (acc : Option Mesh) (vf : Mesh) : Mesh :=
  match acc with
  | none => vf
  | some (v0, f0) => (v0 ++ vf.1, f0 ++ vf.2.map (shiftTriple (v0.length : Int)))

/-- The batch loop of `get_meshes_batch`: for the `i`-th chunk (at most 100
fragments), POST its payload (`respOf i` is the body of the `i`-th POST or a
transport error, which the spec §6 transport raises, aborting the loop),
decode with `parse_raw_ng`, and merge.  Returns the list of issued request
payloads alongside the final result; with no chunks at all the source
returns `tm.Trimesh(None, None)`, the empty mesh. -/
def runChunks (respOf : Nat → Except Nat (List Nat)) :
    Nat → Option Mesh → List (List (Nat × List Nat)) →
      List (List (Nat × List (List Nat))) × Except FetchErr Mesh
  | _, acc, [] => ([], match acc with | none => .ok ([], []) | some m => .ok m)
  | i, acc, c :: cs =>
    match respOf i with
    | .error e => ([meshPayload c], .error (.transport e))
    | .ok bytes =>
      match parse_raw_ng bytes with
      | .error e => ([meshPayload c], .error (.decode e))
      | .ok ps =>
        let out := runChunks respOf (i + 1) (some (mergeStep acc (ps.verts, ps.faces))) cs
        (meshPayload c :: out.1, out.2)

/-- `get_fragments` (fetch.py lines 275-330): the listing response is either
a transport error (the transport raises on non-success), a falsy JSON body
(`if not frags: raise ValueError(...)` — the spec's `NoFragmentsError`), or
the two parallel lists zipped into `(supervoxelId, fragmentKey)` pairs. -/
def get_fragments (listing : Except Nat (Option (List Nat × List (List Nat)))) :
    Except FetchErr (List (Nat × List Nat)) :=
  match listing with
  | .error e => .error (.transport e)
  | .ok none => .error .noFragments
  | .ok (some p) => .ok (p.1.zip p.2)

/-- `get_meshes_batch` (fetch.py lines 333-420): list the fragments, slice
them into consecutive chunks of at most 100 (`for i in range(0, len(frags),
100): chunk = frags[i:i+100]`), POST each chunk's payload in order, decode
each body with `parse_raw_ng`, and merge with a running vertex offset.
Returns the issued mesh-batch request payloads alongside the result. -/
def get_meshes_batch (listing : Except Nat (Option (List Nat × List (List Nat))))
    (respOf : Nat → Except Nat (List Nat)) :
    List (List (Nat × List (List Nat))) × Except FetchErr Mesh :=
  match get_fragments listing with
  | .error e => ([], .error e)
  | .ok frags => runChunks respOf 0 none (slices 100 frags)

/-! ## Algebra of the offset-correcting merge -/

/-- Stacked vertices of a fragment list (processing order). -/
def vertsOf (fs : List MeshFragment) : List (Nat × Nat × Nat) :=
  (fs.map MeshFragment.verts).flatten

/-- Stacked faces of a fragment list with the running vertex offset applied:
fragment k's faces are shifted by the vertex count of fragments before k. -/
def facesOf (fs : List MeshFragment) : List (Int × Int × Int) :=
  ((decodedRecs 0 fs).map DecRecord.faces).flatten

lemma sumVerts_nil : sumVerts [] = 0 := rfl

lemma sumVerts_cons (f : MeshFragment) (fs : List MeshFragment) :
    sumVerts (f :: fs) = f.verts.length + sumVerts fs := by
  simp [sumVerts]

lemma sumVerts_append (A B : List MeshFragment) :
    sumVerts (A ++ B) = sumVerts A + sumVerts B := by
  simp [sumVerts]

lemma vertsOf_append (A B : List MeshFragment) :
    vertsOf (A ++ B) = vertsOf A ++ vertsOf B := by
  simp [vertsOf]

lemma vertsOf_length (fs : List MeshFragment) : (vertsOf fs).length = sumVerts fs := by
  induction fs with
  | nil => rfl
  | cons f fs ih => simp [vertsOf, sumVerts] at ih ⊢; omega

/-- Stacked vertices of a fragment list after the `.astype(int)` cast. -/
def intVertsOf (fs : List MeshFragment) : List (Int × Int × Int) :=
  (vertsOf fs).map intVert

lemma intVertsOf_append (A B : List MeshFragment) :
    intVertsOf (A ++ B) = intVertsOf A ++ intVertsOf B := by
  simp [intVertsOf, vertsOf_append]

lemma intVertsOf_length (fs : List MeshFragment) :
    (intVertsOf fs).length = sumVerts fs := by
  rw [intVertsOf, List.length_map, vertsOf_length]

lemma shiftTriple_zero (t : Int × Int × Int) : shiftTriple 0 t = t := by
  simp [shiftTriple]

lemma shiftTriple_add (a b : Int) (t : Int × Int × Int) :
    shiftTriple (a + b) t = shiftTriple a (shiftTriple b t) := by
  simp only [shiftTriple, Prod.mk.injEq]
  refine ⟨by ring, by ring, by ring⟩

lemma decodedRecs_append (acc : Nat) (A B : List MeshFragment) :
    decodedRecs acc (A ++ B) = decodedRecs acc A ++ decodedRecs (acc + sumVerts A) B := by
  induction A generalizing acc with
  | nil => simp [decodedRecs, sumVerts_nil]
  | cons f A ih =>
    simp only [List.cons_append, decodedRecs, List.cons.injEq, true_and, List.append_eq]
    rw [ih, sumVerts_cons, ← Nat.add_assoc]

lemma decodedRecs_faces_shift (acc : Nat) (fs : List MeshFragment) :
    ((decodedRecs acc fs).map DecRecord.faces).flatten =
      (((decodedRecs 0 fs).map DecRecord.faces).flatten).map (shiftTriple (acc : Int)) := by
  induction fs generalizing acc with
  | nil => simp [decodedRecs]
  | cons f fs ih =>
    simp only [decodedRecs, List.map_cons, List.flatten_cons, List.map_append]
    congr 1
    · simp only [List.map_map]
      refine List.map_congr_left (fun t _ => ?_)
      simp [Function.comp, shiftTriple_zero]
    · rw [ih (acc + f.verts.length), ih (0 + f.verts.length), List.map_map]
      refine List.map_congr_left (fun t _ => ?_)
      simp [Function.comp, shiftTriple_add, shiftTriple_zero]

lemma facesOf_cons (f : MeshFragment) (fs : List MeshFragment) :
    facesOf (f :: fs) =
      f.faces.map intTriple ++ (facesOf fs).map (shiftTriple (f.verts.length : Int)) := by
  unfold facesOf
  simp only [decodedRecs, List.map_cons, List.flatten_cons]
  congr 1
  · simp only [List.map_map]
    refine List.map_congr_left (fun t _ => ?_)
    simp [Function.comp, shiftTriple_zero]
  · rw [decodedRecs_faces_shift (0 + f.verts.length)]
    simp [Nat.zero_add]

lemma facesOf_append (A B : List MeshFragment) :
    facesOf (A ++ B) = facesOf A ++ (facesOf B).map (shiftTriple (sumVerts A : Int)) := by
  unfold facesOf
  rw [decodedRecs_append, List.map_append, List.flatten_append,
    decodedRecs_faces_shift (0 + sumVerts A), Nat.zero_add]

lemma map_shiftTriple_shiftTriple (a b : Int) (l : List (Int × Int × Int)) :
    (l.map (shiftTriple b)).map (shiftTriple a) = l.map (shiftTriple (a + b)) := by
  rw [List.map_map]
  exact List.map_congr_left (fun t _ => (shiftTriple_add a b t).symm)

/-- Successful run of the batch loop from an arbitrary accumulated mesh:
each response decodes to its batch's fragments; the merge appends the
batches' stacked vertices and their offset-shifted faces. -/
lemma runChunks_encode (respOf : Nat → Except Nat (List Nat))
    (chunks : List (List (Nat × List Nat))) (batches : List (List MeshFragment))
    (i : Nat) (V0 : List (Int × Int × Int)) (F0 : List (Int × Int × Int))
    (hlen : chunks.length = batches.length)
    (hwf : ∀ b ∈ batches, (∀ f ∈ b, WFFragment f) ∧ b ≠ [])
    (hresp : ∀ j, j < batches.length →
      respOf (i + j) = .ok (encodeStream (batches.getD j []))) :
    runChunks respOf i (some (V0, F0)) chunks =
      (chunks.map meshPayload,
       .ok (V0 ++ intVertsOf batches.flatten,
            F0 ++ (facesOf batches.flatten).map (shiftTriple (V0.length : Int)))) := by
  induction chunks generalizing batches i V0 F0 with
  | nil =>
    have hb : batches = [] := List.eq_nil_of_length_eq_zero (by simp at hlen; omega)
    subst hb
    simp [runChunks, intVertsOf, vertsOf, facesOf, decodedRecs]
  | cons c cs ih =>
    cases batches with
    | nil => simp at hlen
    | cons b bs =>
      obtain ⟨hbwf, hbne⟩ := hwf b (List.mem_cons_self _ _)
      have h0 : respOf i = .ok (encodeStream b) := by
        have := hresp 0 (by simp)
        simpa using this
      unfold runChunks
      rw [h0]
      dsimp only
      rw [parse_raw_ng_encodeStream b hbwf hbne]
      dsimp only
      rw [show mergeStep (some (V0, F0))
            (((b.map MeshFragment.verts).flatten).map intVert,
             ((decodedRecs 0 b).map DecRecord.faces).flatten) =
          (V0 ++ intVertsOf b, F0 ++ (facesOf b).map (shiftTriple (V0.length : Int)))
          from rfl]
      rw [ih bs (i + 1) (V0 ++ intVertsOf b)
        (F0 ++ (facesOf b).map (shiftTriple (V0.length : Int)))
        (by simpa using hlen)
        (fun b' hb' => hwf b' (List.mem_cons_of_mem _ hb'))
        (fun j hj => by
          have := hresp (j + 1) (by simp; omega)
          simpa [show i + (j + 1) = i + 1 + j by omega] using this)]
      simp only [List.map_cons, Prod.mk.injEq, true_and, Except.ok.injEq]
      constructor
      · rw [List.flatten_cons, intVertsOf_append, List.append_assoc]
      · rw [List.flatten_cons, facesOf_append, List.map_append, map_shiftTriple_shiftTriple,
          List.append_assoc, List.length_append, intVertsOf_length]
        push_cast
        rfl

/-- Same, starting from the initial `None` accumulator of the source. -/
lemma runChunks_encode_none (respOf : Nat → Except Nat (List Nat))
    (chunks : List (List (Nat × List Nat))) (batches : List (List MeshFragment))
    (hlen : chunks.length = batches.length)
    (hwf : ∀ b ∈ batches, (∀ f ∈ b, WFFragment f) ∧ b ≠ [])
    (hresp : ∀ j, j < batches.length →
      respOf j = .ok (encodeStream (batches.getD j []))) :
    runChunks respOf 0 none chunks =
      (chunks.map meshPayload,
       .ok (intVertsOf batches.flatten, facesOf batches.flatten)) := by
  cases chunks with
  | nil =>
    have hb : batches = [] := List.eq_nil_of_length_eq_zero (by simp at hlen; omega)
    subst hb
    simp [runChunks, intVertsOf, vertsOf, facesOf, decodedRecs]
  | cons c cs =>
    cases batches with
    | nil => simp at hlen
    | cons b bs =>
      obtain ⟨hbwf, hbne⟩ := hwf b (List.mem_cons_self _ _)
      have h0 : respOf 0 = .ok (encodeStream b) := hresp 0 (by simp)
      unfold runChunks
      rw [h0]
      dsimp only
      rw [parse_raw_ng_encodeStream b hbwf hbne]
      dsimp only
      rw [show mergeStep none
            (((b.map MeshFragment.verts).flatten).map intVert,
             ((decodedRecs 0 b).map DecRecord.faces).flatten) =
          (intVertsOf b, facesOf b) from rfl]
      rw [runChunks_encode respOf cs bs 1 (intVertsOf b) (facesOf b)
        (by simpa using hlen)
        (fun b' hb' => hwf b' (List.mem_cons_of_mem _ hb'))
        (fun j hj => by
          have := hresp (j + 1) (by simp; omega)
          simpa [show (1 : Nat) + j = j + 1 by omega] using this)]
      simp only [List.map_cons, Prod.mk.injEq, true_and, Except.ok.injEq]
      constructor
      · rw [List.flatten_cons, intVertsOf_append]
      · rw [List.flatten_cons, facesOf_append, intVertsOf_length]

/-- Default fragment / record used by positional `getD` indexing. -/
def dFrag : MeshFragment := ⟨0, [], [], []⟩

/-- Default record used by positional `getD` indexing. -/
def dRec : DecRecord := ⟨0, [], [], []⟩

/-- The `k`-th decoded record: fragment `k`'s fields, its faces shifted by
`acc` plus the vertex count of the preceding fragments. -/
lemma decodedRecs_getD (acc : Nat) (fs : List MeshFragment) (k : Nat) (hk : k < fs.length) :
    (decodedRecs acc fs).getD k dRec =
      ⟨((fs.getD k dFrag).objectId : Int), (fs.getD k dFrag).label, (fs.getD k dFrag).verts,
        ((fs.getD k dFrag).faces.map intTriple).map
          (shiftTriple ((acc + sumVerts (fs.take k) : Nat) : Int))⟩ := by
  induction fs generalizing acc k with
  | nil => simp at hk
  | cons f fs ih =>
    cases k with
    | zero => simp [decodedRecs, sumVerts_nil]
    | succ k =>
      simp only [decodedRecs, List.getD_cons_succ, List.take_succ_cons]
      rw [ih (acc + f.verts.length) k (by simpa using hk)]
      have harith : acc + f.verts.length + sumVerts (fs.take k) =
          acc + sumVerts (f :: fs.take k) := by
        rw [sumVerts_cons]; omega
      rw [harith]

/-! ## Spatial batch lookup engine: `get_seg_at_location` (fetch.py) -/

/-- An integer voxel coordinate. -/
abbrev Coord := Int × Int × Int

/-- Number of spatial clusters: `math.ceil(len(coords) / 2e2)` with the
hard-coded chunk size 200. -/
def nChunks (n : Nat) : Nat := (n + 199) / 200

/-- Cluster labels used by the engine: the scipy `kmeans2` labels when more
than one chunk is needed (`if n_chunks > 1`), else `np.zeros(len(coords))`.
The kmeans labels are an input here (scipy is an external collaborator that
assigns each point a label in `[0, k)`). -/
def segLabels (n : Nat) (kmeansLabels : List Nat) : List Nat :=
  if 1 < nChunks n then kmeansLabels else List.replicate n 0

/-- `np.where(labels == i)[0]`: positions carrying cluster label `i`, in
increasing order. -/
def clusterIx (labels : List Nat) (i : Nat) : List Nat :=
  (List.range labels.length).filter (fun j => labels.getD j 0 == i)

/-- The per-job original-index lists `seg_ix`: for each cluster in order,
its positions sliced into consecutive sub-chunks of at most 200.  An empty
cluster contributes nothing (`if chunk.shape[0] == 0: continue`, and
`slices 200 [] = []`). -/
def segIxs (n : Nat) (labels : List Nat) : List (List Nat) :=
  ((List.range (nChunks n)).map (fun i => slices 200 (clusterIx labels i))).flatten

/-- The POST payloads: each job's voxel coordinates in job order
(`mini_chunk = chunk[k:k+200]` where `chunk = coords[ix]`). -/
def segPosts (coords : List Coord) (ixs : List (List Nat)) : List (List Coord) :=
  ixs.map (fun ix => ix.map (fun j => coords.getD j (0, 0, 0)))

/-- Round `v` to the nearest multiple of `2^k`, ties to even. -/
def roundGran (k v : Nat) : Nat :=
  if v % 2 ^ k < 2 ^ (k - 1) then v / 2 ^ k * 2 ^ k
  else if 2 ^ (k - 1) < v % 2 ^ k then (v / 2 ^ k + 1) * 2 ^ k
  else if v / 2 ^ k % 2 = 0 then v / 2 ^ k * 2 ^ k else (v / 2 ^ k + 1) * 2 ^ k

/-- Rounding of a natural number to the nearest IEEE-754 binary64 value
(ties to even): numbers below `2^53` are exact; above, the number is
rounded at granularity `2^(log2 v - 52)` (one ulp).  This is what numpy
does when parsing the decimal strings of `uint64StrList.values` into the
`np.zeros` (float64) result buffer. -/
def f64round (v : Nat) : Nat :=
  if v < 2 ^ 53 then v else roundGran (Nat.log2 v - 52) v

/-- Errors of the lookup engine: a non-success HTTP status surfaced by
`raise_for_status` (status carried unchanged), a response body without the
`uint64StrList.values` key (`KeyError`), or a label list whose length
matches neither the job size nor numpy's length-1 broadcast. -/
inductive SegErr
  | transport (status : Nat)
  | badShape
  | lengthMismatch
  deriving DecidableEq, Repr

/-- `seg_ids[ix] = vals` for one job: numpy writes `vals` elementwise at the
positions `ix` (or broadcasts a single value), each decimal string parsed
through the float64 buffer (`f64round`).  Any other length mismatch raises. -/
def writeJob (buf : List Nat) (ix : List Nat) (vals : List Nat) :
    Except SegErr (List Nat) :=
  if vals.length = ix.length then
    .ok ((ix.zip vals).foldl (fun b p => b.set p.1 (f64round p.2)) buf)
  else if vals.length = 1 then
    .ok (ix.foldl (fun b j => b.set j (f64round (vals.getD 0 0))) buf)
  else .error .lengthMismatch

/-- First failing status among the responses, visited in job order
(`for r in resp: r.raise_for_status()`). -/
def firstStatusErr : List (Except Nat (Option (List Nat))) → Option Nat
  | [] => none
  | .error e :: _ => some e
  | .ok _ :: rest => firstStatusErr rest

/-- `[r.json()['uint64StrList']['values'] for r in resp]`: the first
response missing the key raises `KeyError` (only reached when every status
was a success). -/
def extractVals : List (Except Nat (Option (List Nat))) → Except SegErr (List (List Nat))
  | [] => .ok []
  | .error _ :: _ => .error .badShape
  | .ok none :: _ => .error .badShape
  | .ok (some v) :: rest =>
    match extractVals rest with
    | .error e => .error e
    | .ok vs => .ok (v :: vs)

/-- The scatter loop `for ix, i in zip(seg_ix, ids): seg_ids[ix] = i`. -/
def scatterJobs (buf : List Nat) : List (List Nat × List Nat) → Except SegErr (List Nat)
  | [] => .ok buf
  | (ix, vals) :: rest =>
    match writeJob buf ix vals with
    | .error e => .error e
    | .ok b => scatterJobs b rest

/-- `get_seg_at_location` (fetch.py lines 423-542) on the voxel-native
(`raw_coords=True`) path — the physical-to-voxel float division is outside
this integer model, and on integer voxel input
`np.round(coords.astype(float)).astype(int)` is the identity.
`kmeansLabels` are the scipy cluster labels (external collaborator);
`respOf j` is the response to the `j`-th POST — every job is POSTed exactly
once, all upfront, through the `FuturesSession`; `maxThreads` only sizes
the worker pool and takes no part in the data path.  Statuses of all
responses are checked in job order, then the label lists are extracted,
then scattered into the zero-initialised float64 buffer by original index;
the final `return seg_ids.astype(int)` (fetch.py line 542) casts each
float64 entry to `int64`, modelled by `i64cast` (exact below `2^63`).
Returns the issued POSTs alongside the result. -/
def get_seg_at_location (maxThreads : Nat) (coords : List Coord)
    (kmeansLabels : List Nat) (respOf : Nat → Except Nat (Option (List Nat))) :
    List (List Coord) × Except SegErr (List Int) :=
  let _W := maxThreads
  let labels := segLabels coords.length kmeansLabels
  let ixs := segIxs coords.length labels
  let posts := segPosts coords ixs
  let resps := (List.range posts.length).map respOf
  (posts,
    match firstStatusErr resps with
    | some e => .error (.transport e)
    | none =>
      match extractVals resps with
      | .error e => .error e
      | .ok ids =>
        match scatterJobs (List.replicate coords.length 0) (ixs.zip ids) with
        | .error e => .error e
        | .ok buf => .ok (buf.map (fun v : Nat => i64cast (v : Int))))

/-- Modelled from the spec: §4.3 step 5 and §7 describe a serial dispatch
mode in which each sub-chunk request is retried up to a configured maximum
number of attempts on non-success status before failing; no such retry loop
exists in the source.  `f a` is the response the transport would give on
attempt `a`; the dispatcher takes the first success within `maxAttempts`
attempts, else the last error. -/
def retryResp (maxAttempts : Nat) (f : Nat → Except Nat (Option (List Nat))) :
    Except Nat (Option (List Nat)) :=
  match maxAttempts with
  | 0 => f 0
  | n + 1 =>
    match f 0 with
    | .ok v => .ok v
    | .error e => if n = 0 then .error e else retryResp n (fun a => f (a + 1))

/-! ## Float64 rounding facts -/

/-- Exactly representable in binary64: a 53-bit mantissa times a power of 2. -/
def f64exactInt (v : Nat) : Prop := ∃ m e : Nat, m < 2 ^ 53 ∧ v = m * 2 ^ e

lemma f64round_of_lt (v : Nat) (h : v < 2 ^ 53) : f64round v = v := by
  unfold f64round
  rw [if_pos h]

lemma roundGran_of_dvd (k v : Nat) (h : 2 ^ k ∣ v) : roundGran k v = v := by
  have hm : v % 2 ^ k = 0 := Nat.mod_eq_zero_of_dvd h
  unfold roundGran
  rw [hm, if_pos (by positivity)]
  exact Nat.div_mul_cancel h

lemma roundGran_eq_self_imp (k v : Nat) (h : roundGran k v = v) : 2 ^ k ∣ v := by
  unfold roundGran at h
  split at h
  · exact ⟨v / 2 ^ k, by rw [Nat.mul_comm]; exact h.symm⟩
  · split at h
    · exact ⟨v / 2 ^ k + 1, by rw [Nat.mul_comm]; exact h.symm⟩
    · split at h
      · exact ⟨v / 2 ^ k, by rw [Nat.mul_comm]; exact h.symm⟩
      · exact ⟨v / 2 ^ k + 1, by rw [Nat.mul_comm]; exact h.symm⟩

/-- `f64round` is the identity exactly on the binary64-representable
integers. -/
lemma f64round_eq_self_iff (v : Nat) : f64round v = v ↔ f64exactInt v := by
  by_cases h : v < 2 ^ 53
  · rw [f64round_of_lt v h]
    constructor
    · intro _; exact ⟨v, 0, h, by ring⟩
    · intro _; rfl
  · push_neg at h
    have hv0 : v ≠ 0 := by
      have : (0 : Nat) < 2 ^ 53 := by positivity
      omega
    have hlog_ge : 53 ≤ Nat.log2 v := (Nat.le_log2 hv0).mpr h
    set k := Nat.log2 v - 52 with hk
    have hk1 : 1 ≤ k := by omega
    have hhigh : v < 2 ^ (53 + k) := by
      have h2 := @Nat.lt_log2_self v
      have he : (53 + k) = Nat.log2 v + 1 := by omega
      rw [he]
      exact h2
    unfold f64round
    rw [if_neg (by omega), ← hk]
    constructor
    · intro he
      have hdvd : 2 ^ k ∣ v := roundGran_eq_self_imp k v he
      refine ⟨v / 2 ^ k, k, ?_, (Nat.div_mul_cancel hdvd).symm⟩
      rw [Nat.div_lt_iff_lt_mul (by positivity)]
      calc v < 2 ^ (53 + k) := hhigh
        _ = 2 ^ 53 * 2 ^ k := by rw [pow_add]
    · rintro ⟨m, e, hm, rfl⟩
      apply roundGran_of_dvd
      have hke : k ≤ e := by
        by_contra hc
        push_neg at hc
        have h1 : m * 2 ^ e < 2 ^ 53 * 2 ^ e :=
          (Nat.mul_lt_mul_right (Nat.two_pow_pos e)).mpr hm
        have h2 : (2 : Nat) ^ 53 * 2 ^ e = 2 ^ (53 + e) := by rw [pow_add]
        have h4 : (2 : Nat) ^ (53 + e) ≤ 2 ^ (52 + k) :=
          Nat.pow_le_pow_right (by norm_num) (by omega)
        have hlow : 2 ^ (52 + k) ≤ m * 2 ^ e := by
          have h5 := Nat.log2_self_le hv0
          have he52 : (52 + k) = Nat.log2 (m * 2 ^ e) := by omega
          rw [he52]
          exact h5
        omega
      exact Dvd.dvd.mul_left (pow_dvd_pow 2 hke) m

lemma log2_boundary : Nat.log2 (2 ^ 53 + 1) = 53 := by
  have h1 : 53 ≤ Nat.log2 (2 ^ 53 + 1) := (Nat.le_log2 (by positivity)).mpr (by omega)
  have h2 : Nat.log2 (2 ^ 53 + 1) < 54 := by
    rw [Nat.log2_lt (by positivity)]
    norm_num
  omega

/-- The first unrepresentable integer: `2^53 + 1` rounds down to `2^53`. -/
lemma f64round_boundary : f64round (2 ^ 53 + 1) = 2 ^ 53 := by
  unfold f64round
  rw [if_neg (by omega), log2_boundary]
  decide

/-- The `int64` cast is exact on naturals below `2^63`. -/
lemma i64cast_coe_of_lt (v : Nat) (h : v < 2 ^ 63) : i64cast (v : Int) = (v : Int) := by
  unfold i64cast
  rw [if_pos ⟨le_trans (by norm_num) (Int.natCast_nonneg v), by exact_mod_cast h⟩]

lemma getD_map_i64 (l : List Nat) (g : Nat → Int) (j : Nat) (h : j < l.length) :
    (l.map g).getD j 0 = g (l.getD j 0) := by
  rw [List.getD_eq_getElem?_getD, List.getD_eq_getElem?_getD, List.getElem?_map,
    List.getElem?_eq_getElem h]
  simp

/-! ## Partition and scatter facts for the lookup engine -/

lemma mem_clusterIx (labels : List Nat) (i j : Nat) :
    j ∈ clusterIx labels i ↔ j < labels.length ∧ labels.getD j 0 = i := by
  simp [clusterIx, List.mem_filter, List.mem_range]

lemma clusterIx_nodup (labels : List Nat) (i : Nat) : (clusterIx labels i).Nodup :=
  (List.nodup_range _).filter _

lemma flatClusters_nodup (labels : List Nat) (m : Nat) :
    (((List.range m).map (clusterIx labels)).flatten).Nodup := by
  rw [List.nodup_flatten]
  constructor
  · intro l hl
    obtain ⟨i, _, rfl⟩ := List.mem_map.mp hl
    exact clusterIx_nodup labels i
  · rw [List.pairwise_map]
    refine (List.pairwise_lt_range m).imp ?_
    intro i i' hlt j hj hj'
    have h1 := ((mem_clusterIx labels i j).mp hj).2
    have h2 := ((mem_clusterIx labels i' j).mp hj').2
    omega

lemma mem_flatClusters (labels : List Nat) (m j : Nat) (hj : j < labels.length)
    (hl : labels.getD j 0 < m) :
    j ∈ ((List.range m).map (clusterIx labels)).flatten := by
  rw [List.mem_flatten]
  exact ⟨clusterIx labels (labels.getD j 0),
    List.mem_map_of_mem _ (List.mem_range.mpr hl),
    (mem_clusterIx _ _ _).mpr ⟨hj, rfl⟩⟩

lemma mem_flatClusters_lt (labels : List Nat) (m j : Nat)
    (h : j ∈ ((List.range m).map (clusterIx labels)).flatten) : j < labels.length := by
  rw [List.mem_flatten] at h
  obtain ⟨l, hl, hj⟩ := h
  obtain ⟨i, _, rfl⟩ := List.mem_map.mp hl
  exact ((mem_clusterIx labels i j).mp hj).1

lemma flatten_flatten_slices {α : Type} (g : Nat → List α) (l : List Nat) :
    ((l.map (fun i => slices 200 (g i))).flatten).flatten = (l.map g).flatten := by
  induction l with
  | nil => rfl
  | cons i l ih =>
    simp only [List.map_cons, List.flatten_cons, List.flatten_append, ih,
      slices_flatten 200 (by norm_num) (g i)]

/-- The flattened job indices are exactly the flattened cluster blocks. -/
lemma segIxs_flatten (n : Nat) (labels : List Nat) :
    (segIxs n labels).flatten =
      ((List.range (nChunks n)).map (clusterIx labels)).flatten :=
  flatten_flatten_slices (clusterIx labels) (List.range (nChunks n))

/-- The write-back primitive: sequentially `buf[j] = f64round v` for each
pair `(j, v)`. -/
def writePairs (buf : List Nat) (ps : List (Nat × Nat)) : List Nat :=
  ps.foldl (fun b p => b.set p.1 (f64round p.2)) buf

lemma writePairs_append (buf : List Nat) (ps qs : List (Nat × Nat)) :
    writePairs buf (ps ++ qs) = writePairs (writePairs buf ps) qs := by
  simp [writePairs, List.foldl_append]

lemma writePairs_length (ps : List (Nat × Nat)) (buf : List Nat) :
    (writePairs buf ps).length = buf.length := by
  induction ps generalizing buf with
  | nil => rfl
  | cons p ps ih =>
    rw [show writePairs buf (p :: ps) =
        writePairs (buf.set p.1 (f64round p.2)) ps from rfl, ih]
    simp

lemma getD_set_ne (b : List Nat) {i j : Nat} (v : Nat) (h : i ≠ j) :
    (b.set i v).getD j 0 = b.getD j 0 := by
  simp [List.getD_eq_getElem?_getD, List.getElem?_set_ne h]

lemma getD_set_self (b : List Nat) {j : Nat} (v : Nat) (h : j < b.length) :
    (b.set j v).getD j 0 = v := by
  simp [List.getD_eq_getElem?_getD, List.getElem?_set_self, h]

lemma writePairs_getD_not_mem (ps : List (Nat × Nat)) (buf : List Nat) (j : Nat)
    (hj : j ∉ ps.map Prod.fst) :
    (writePairs buf ps).getD j 0 = buf.getD j 0 := by
  induction ps generalizing buf with
  | nil => rfl
  | cons p ps ih =>
    simp only [List.map_cons, List.mem_cons, not_or] at hj
    rw [show writePairs buf (p :: ps) =
        writePairs (buf.set p.1 (f64round p.2)) ps from rfl,
      ih _ hj.2, getD_set_ne _ _ (fun he => hj.1 he.symm)]

lemma writePairs_getD_mem (ps : List (Nat × Nat)) (buf : List Nat) (j v : Nat)
    (hnd : (ps.map Prod.fst).Nodup) (hmem : (j, v) ∈ ps) (hj : j < buf.length) :
    (writePairs buf ps).getD j 0 = f64round v := by
  induction ps generalizing buf with
  | nil => simp at hmem
  | cons p ps ih =>
    simp only [List.map_cons, List.nodup_cons] at hnd
    rcases List.mem_cons.mp hmem with heq | hmem'
    · rw [← heq] at hnd ⊢
      rw [show writePairs buf ((j, v) :: ps) =
          writePairs (buf.set j (f64round v)) ps from rfl,
        writePairs_getD_not_mem ps _ j hnd.1,
        getD_set_self _ _ hj]
    · have hne : p.1 ≠ j := by
        intro he
        exact hnd.1 (he ▸ List.mem_map_of_mem Prod.fst hmem')
      rw [show writePairs buf (p :: ps) =
          writePairs (buf.set p.1 (f64round p.2)) ps from rfl]
      exact ih _ hnd.2 hmem' (by simpa using hj)

lemma writePairs_perm {ps ps' : List (Nat × Nat)} (h : ps.Perm ps') :
    ∀ buf, (ps.map Prod.fst).Nodup → writePairs buf ps = writePairs buf ps' := by
  induction h with
  | nil => intro _ _; rfl
  | cons p _ ih =>
    intro buf hnd
    simp only [List.map_cons, List.nodup_cons] at hnd
    exact ih _ hnd.2
  | swap x y l =>
    intro buf hnd
    simp only [List.map_cons, List.nodup_cons, List.mem_cons, not_or] at hnd
    have hxy : y.1 ≠ x.1 := hnd.1.1
    show writePairs ((buf.set y.1 (f64round y.2)).set x.1 (f64round x.2)) l =
      writePairs ((buf.set x.1 (f64round x.2)).set y.1 (f64round y.2)) l
    rw [List.set_comm _ _ _ hxy]
  | trans h1 _ ih1 ih2 =>
    intro buf hnd
    rw [ih1 buf hnd, ih2 buf (((h1.map Prod.fst).nodup_iff).mp hnd)]

/-- With every job's label list matching its index list in length, the
scatter loop is the flat sequence of elementwise writes. -/
lemma scatterJobs_eq_writePairs (jobs : List (List Nat × List Nat)) (buf : List Nat)
    (hlen : ∀ p ∈ jobs, p.2.length = p.1.length) :
    scatterJobs buf jobs =
      .ok (writePairs buf ((jobs.map (fun p => p.1.zip p.2)).flatten)) := by
  induction jobs generalizing buf with
  | nil => rfl
  | cons p jobs ih =>
    obtain ⟨ix, vals⟩ := p
    have hl := hlen _ (List.mem_cons_self _ _)
    unfold scatterJobs
    rw [show writeJob buf ix vals = .ok (writePairs buf (ix.zip vals)) from by
      unfold writeJob writePairs
      rw [if_pos hl]]
    dsimp only
    rw [ih _ (fun q hq => hlen q (List.mem_cons_of_mem _ hq)),
      List.map_cons, List.flatten_cons, writePairs_append]

lemma zip_self_map {α β : Type} (h : α → β) (l : List α) :
    l.zip (l.map h) = l.map (fun x => (x, h x)) := by
  induction l with
  | nil => rfl
  | cons a l ih => simp only [List.map_cons, List.zip_cons_cons, ih]

lemma flatten_map_map {α β : Type} (h : α → β) (L : List (List α)) :
    (L.map (fun l => l.map h)).flatten = L.flatten.map h := by
  induction L with
  | nil => rfl
  | cons l L ih => simp only [List.map_cons, List.flatten_cons, List.map_append, ih]

lemma firstStatusErr_map_ok {α : Type} (g : α → Option (List Nat)) (l : List α) :
    firstStatusErr (l.map (fun x => .ok (g x))) = none := by
  induction l with
  | nil => rfl
  | cons a l ih => simpa [firstStatusErr] using ih

lemma extractVals_map_ok {α : Type} (g : α → List Nat) (l : List α) :
    extractVals (l.map (fun x => .ok (some (g x)))) = .ok (l.map g) := by
  induction l with
  | nil => rfl
  | cons a l ih => simp [extractVals, ih]

lemma range_map_getD {α β : Type} (l : List α) (d : α) (g : α → β) :
    (List.range l.length).map (fun j => g (l.getD j d)) = l.map g := by
  induction l with
  | nil => rfl
  | cons a l ih =>
    simp only [List.length_cons, List.range_succ_eq_map, List.map_cons, List.getD_cons_zero,
      List.map_map]
    congr 1

lemma getD_mem_of_lt {α : Type} (l : List α) (j : Nat) (d : α) (h : j < l.length) :
    l.getD j d ∈ l := by
  have he : l.getD j d = l[j] := by
    simp [List.getD_eq_getElem?_getD, List.getElem?_eq_getElem h]
  rw [he]
  exact List.getElem_mem h

/-- Well-formed cluster labels: one per coordinate, all below the chunk
count (what scipy's `kmeans2` guarantees for its `k` clusters). -/
def WFLabels (n : Nat) (labels : List Nat) : Prop :=
  labels.length = n ∧ ∀ l ∈ labels, l < nChunks n

lemma segLabels_wf (n : Nat) (kmeansLabels : List Nat)
    (h : 1 < nChunks n → WFLabels n kmeansLabels) :
    WFLabels n (segLabels n kmeansLabels) := by
  unfold segLabels
  split
  · exact h (by assumption)
  · refine ⟨List.length_replicate _ _, ?_⟩
    intro l hl
    rcases List.eq_of_mem_replicate hl with rfl
    have hn : n ≠ 0 := by
      intro h0
      subst h0
      simp at hl
    unfold nChunks
    omega

/-- Pipeline characterization of `get_seg_at_location` on well-behaved
responses: with cluster labels covering `[0, nChunks)`, the service
answering each POST with the per-coordinate labels of an oracle `L`, and
every rounded label inside the `int64` range (so the final `.astype(int)`
is exact), the call returns exactly one entry per input coordinate — the
float64-rounded `L`-label of that coordinate. -/
lemma get_seg_ok (W : Nat) (coords : List Coord) (kmeansLabels : List Nat)
    (L : Coord → Nat) (respOf : Nat → Except Nat (Option (List Nat)))
    (hkm : 1 < nChunks coords.length → WFLabels coords.length kmeansLabels)
    (hresp : ∀ j, j < (segPosts coords
        (segIxs coords.length (segLabels coords.length kmeansLabels))).length →
      respOf j = .ok (some (((segPosts coords
        (segIxs coords.length (segLabels coords.length kmeansLabels))).getD j []).map L)))
    (hcast : ∀ c, f64round (L c) < 2 ^ 63) :
    ∃ r, (get_seg_at_location W coords kmeansLabels respOf).2 = .ok r ∧
      r.length = coords.length ∧
      ∀ j, j < coords.length →
        r.getD j 0 = ((f64round (L (coords.getD j (0, 0, 0)))) : Int) := by
  obtain ⟨hlenl, hmeml⟩ := segLabels_wf coords.length kmeansLabels hkm
  have hresps : (List.range (segPosts coords
        (segIxs coords.length (segLabels coords.length kmeansLabels))).length).map respOf =
      (segPosts coords (segIxs coords.length (segLabels coords.length kmeansLabels))).map
        (fun p => (Except.ok (some (p.map L)) : Except Nat (Option (List Nat)))) := by
    refine (List.map_congr_left (fun j hj => hresp j (List.mem_range.mp hj))).trans ?_
    exact range_map_getD _ [] (fun p => Except.ok (some (p.map L)))
  unfold get_seg_at_location
  dsimp only
  rw [hresps, firstStatusErr_map_ok, extractVals_map_ok]
  dsimp only
  -- normalise the jobs into index/value pair form
  rw [show (segPosts coords (segIxs coords.length (segLabels coords.length kmeansLabels))).map
        (fun p => p.map L) =
      (segIxs coords.length (segLabels coords.length kmeansLabels)).map
        (fun ix => ix.map (fun j => L (coords.getD j (0, 0, 0)))) from by
    unfold segPosts
    rw [List.map_map]
    exact List.map_congr_left (fun ix _ => by simp [Function.comp, List.map_map])]
  rw [zip_self_map (fun ix => ix.map (fun j => L (coords.getD j (0, 0, 0))))
    (segIxs coords.length (segLabels coords.length kmeansLabels))]
  rw [scatterJobs_eq_writePairs _ _ (by
    intro p hp
    obtain ⟨ix, _, rfl⟩ := List.mem_map.mp hp
    exact List.length_map _ _)]
  rw [List.map_map, show ((fun p : List Nat × List Nat => p.1.zip p.2) ∘
      (fun ix => (ix, ix.map (fun j => L (coords.getD j (0, 0, 0)))))) =
      (fun ix : List Nat => ix.map (fun j => (j, L (coords.getD j (0, 0, 0))))) from by
    funext ix
    exact zip_self_map _ ix]
  rw [flatten_map_map, segIxs_flatten]
  dsimp only
  refine ⟨_, rfl, ?_, ?_⟩
  · rw [List.length_map, writePairs_length, List.length_replicate]
  · intro j hj
    have hjmem : j ∈ ((List.range (nChunks coords.length)).map
        (clusterIx (segLabels coords.length kmeansLabels))).flatten := by
      apply mem_flatClusters
      · omega
      · exact hmeml _ (getD_mem_of_lt _ j 0 (by omega))
    have hnd : ((((List.range (nChunks coords.length)).map
        (clusterIx (segLabels coords.length kmeansLabels))).flatten).map
        (fun j => (j, L (coords.getD j (0, 0, 0)))) |>.map Prod.fst).Nodup := by
      rw [List.map_map, show (Prod.fst ∘ fun j : Nat => (j, L (coords.getD j (0, 0, 0)))) =
          id from by
        funext x
        rfl]
      rw [List.map_id]
      exact flatClusters_nodup _ _
    rw [getD_map_i64 _ _ j (by rw [writePairs_length, List.length_replicate]; omega)]
    rw [writePairs_getD_mem _ _ j (L (coords.getD j (0, 0, 0))) hnd
      (List.mem_map_of_mem _ hjmem) (by rw [List.length_replicate]; omega)]
    exact i64cast_coe_of_lt _ (hcast _)

lemma firstStatusErr_none_no_error (l : List (Except Nat (Option (List Nat))))
    (hs : firstStatusErr l = none) (x : Except Nat (Option (List Nat))) (hx : x ∈ l) :
    ∀ e, x ≠ .error e := by
  induction l with
  | nil => simp at hx
  | cons a l ih =>
    cases a with
    | error e => simp [firstStatusErr] at hs
    | ok v =>
      rcases List.mem_cons.mp hx with rfl | hx'
      · intro e h
        cases h
      · exact ih (by simpa [firstStatusErr] using hs) hx'

lemma extractVals_err_of_mem_none (l : List (Except Nat (Option (List Nat))))
    (hs : firstStatusErr l = none) (hmem : (Except.ok none : Except Nat (Option (List Nat))) ∈ l) :
    ∃ e, extractVals l = .error e := by
  induction l with
  | nil => simp at hmem
  | cons a l ih =>
    cases a with
    | error e => simp [firstStatusErr] at hs
    | ok v =>
      cases v with
      | none => exact ⟨.badShape, rfl⟩
      | some w =>
        have hmem' : (Except.ok none : Except Nat (Option (List Nat))) ∈ l := by
          rcases List.mem_cons.mp hmem with h | h
          · cases h
          · exact h
        obtain ⟨e, he⟩ := ih (by simpa [firstStatusErr] using hs) hmem'
        exact ⟨e, by simp [extractVals, he]⟩

/-- If the transport fails on the `j`-th chunk (earlier chunks succeeding
and decoding), the batch loop issues exactly the first `j + 1` requests,
once each, and surfaces that transport error unchanged. -/
lemma runChunks_error_at (respOf : Nat → Except Nat (List Nat))
    (chunks : List (List (Nat × List Nat))) (i : Nat) (acc : Option Mesh) (j : Nat) (e : Nat)
    (hj : j < chunks.length)
    (hok : ∀ i', i' < j → ∃ bs ps, respOf (i + i') = .ok bs ∧ parse_raw_ng bs = .ok ps)
    (herr : respOf (i + j) = .error e) :
    runChunks respOf i acc chunks =
      ((chunks.take (j + 1)).map meshPayload, .error (.transport e)) := by
  induction chunks generalizing i acc j with
  | nil => simp at hj
  | cons c cs ih =>
    cases j with
    | zero =>
      unfold runChunks
      rw [show i + 0 = i from rfl] at herr
      rw [herr]
      simp
    | succ j =>
      obtain ⟨bs, ps, hbs, hps⟩ := hok 0 (by omega)
      unfold runChunks
      rw [show i + 0 = i from rfl] at hbs
      rw [hbs]
      dsimp only
      rw [hps]
      dsimp only
      rw [ih (i + 1) _ j (by simpa using hj)
        (fun i' hi' => by
          have := hok (i' + 1) (by omega)
          rwa [show i + (i' + 1) = i + 1 + i' by omega] at this)
        (by rwa [show i + (j + 1) = i + 1 + j by omega] at herr)]
      simp

lemma sumVerts_take_succ (fs : List MeshFragment) (k : Nat) (hk : k < fs.length) :
    sumVerts (fs.take (k + 1)) = sumVerts (fs.take k) + (fs.getD k dFrag).verts.length := by
  induction fs generalizing k with
  | nil => simp at hk
  | cons f fs ih =>
    cases k with
    | zero => simp [sumVerts_cons, sumVerts_nil]
    | succ k =>
      simp only [List.take_succ_cons, sumVerts_cons, List.getD_cons_succ]
      rw [ih k (by simpa using hk)]
      omega

lemma sumVerts_take_le (fs : List MeshFragment) (k : Nat) :
    sumVerts (fs.take k) ≤ sumVerts fs := by
  conv_rhs => rw [← List.take_append_drop k fs]
  rw [sumVerts_append]
  omega

/-- Modelled from the spec: the lookup engine as the spec's claim describes
it — identical to `get_seg_at_location` except that each job's request is
retried up to `maxAttempts` times on non-success status.  `t j a` is the
response the transport would give the `j`-th job on its `a`-th attempt. -/
def get_seg_at_location_retry (maxAttempts : Nat) (coords : List Coord)
    (kmeansLabels : List Nat) (t : Nat → Nat → Except Nat (Option (List Nat))) :
    List (List Coord) × Except SegErr (List Int) :=
  get_seg_at_location 1 coords kmeansLabels (fun j => retryResp maxAttempts (t j))



/-! ## Helpers for the lookup-engine claims -/

lemma segPosts_map_L (coords : List Coord) (L : Coord → Nat) (ixs : List (List Nat)) :
    (segPosts coords ixs).map (fun p => p.map L) =
      ixs.map (fun ix => ix.map (fun j => L (coords.getD j (0, 0, 0)))) := by
  unfold segPosts
  rw [List.map_map]
  exact List.map_congr_left (fun ix _ => by simp [Function.comp, List.map_map])

lemma segZip_eq (coords : List Coord) (L : Coord → Nat) (ixs : List (List Nat)) :
    ixs.zip ((segPosts coords ixs).map (fun p => p.map L)) =
      ixs.map (fun ix => (ix, ix.map (fun j => L (coords.getD j (0, 0, 0))))) := by
  rw [segPosts_map_L]
  exact zip_self_map _ ixs

lemma segJobs_pairs (ixs : List (List Nat)) (g : Nat → Nat) :
    (ixs.map (fun ix => (ix, ix.map g))).map (fun p => p.1.zip p.2) =
      ixs.map (fun ix => ix.map (fun j => (j, g j))) := by
  rw [List.map_map]
  exact List.map_congr_left (fun ix _ => zip_self_map g ix)

lemma segPairs_fst_nodup (n : Nat) (labels : List Nat) (g : Nat → Nat) :
    (((((segIxs n labels).map (fun ix => ix.map (fun j => (j, g j)))).flatten).map
      Prod.fst)).Nodup := by
  rw [flatten_map_map, segIxs_flatten, List.map_map,
    show (Prod.fst ∘ fun j : Nat => (j, g j)) = id from by
      funext x
      rfl,
    List.map_id]
  exact flatClusters_nodup _ _

/-! ## Claim theorems -/

/-- C1 (counterexample): the claim says `parse_raw_ng` yields fragment-local
(non-offset) face indices.  False: for a 2-fragment stream whose second
fragment's wire faces are `(0,0,0)` and whose first fragment has 2
vertices, the decoder returns that face as `(2,2,2)` — the running vertex
offset is added by the decoder itself (io.py lines 262-263). -/
theorem claim_C1_counterexample :
    parse_raw_ng (encodeStream
      [⟨1, [], [(0, 0, 0), (0, 0, 0)], []⟩, ⟨1, [], [(0, 0, 0)], [(0, 0, 0)]⟩]) =
      .ok ⟨1, [[], []], [(0, 0, 0), (0, 0, 0), (0, 0, 0)], [(2, 2, 2)]⟩ ∧
    (((2 : Int), (2 : Int), (2 : Int)) ≠ intTriple (0, 0, 0)) := by
  constructor
  · rfl
  · decide

/-- C1 (amended): the decoder itself adds the running vertex-count offset:
for every well-formed nonempty fragment stream, the decoded faces are the
concatenation of the per-record blocks, and the k-th record's block is its
wire faces shifted by the total vertex count of the records preceding it in
the stream; the merge step then only adds the cross-batch offsets on top. -/
theorem claim_C1_amended (fs : List MeshFragment) (hwf : ∀ f ∈ fs, WFFragment f)
    (hne : fs ≠ []) :
    (∃ ps : ParsedStream, parse_raw_ng (encodeStream fs) = .ok ps ∧
      ps.faces = ((decodedRecs 0 fs).map DecRecord.faces).flatten) ∧
    ∀ k, k < fs.length →
      ((decodedRecs 0 fs).getD k dRec).faces =
        ((fs.getD k dFrag).faces.map intTriple).map
          (shiftTriple (sumVerts (fs.take k) : Int)) := by
  constructor
  · exact ⟨_, parse_raw_ng_encodeStream fs hwf hne, rfl⟩
  · intro k hk
    rw [decodedRecs_getD 0 fs k hk]
    simp

/-- Witness for C1 (amended) at a concrete 1-fragment stream. -/
theorem claim_C1_amended_witness :
    ∃ ps : ParsedStream,
      parse_raw_ng (encodeStream [⟨1, [65, 66, 67, 68, 69, 70, 71, 72],[(0, 0, 0)], [(0, 0, 0)]⟩]) = .ok ps ∧
      ps.faces = ((decodedRecs 0 [⟨1, [65, 66, 67, 68, 69, 70, 71, 72],[(0, 0, 0)], [(0, 0, 0)]⟩]).map
        DecRecord.faces).flatten :=
  (claim_C1_amended [⟨1, [65, 66, 67, 68, 69, 70, 71, 72],[(0, 0, 0)], [(0, 0, 0)]⟩] (by decide) (by decide)).1

/-- C3 (counterexample): the claim says decoding an encoded stream of N ≥ 0
fragments yields N fragments, consuming the whole buffer.  False at N = 0:
on the empty stream the source's final `return` line crashes (`object_id`
unbound, `np.vstack` of an empty list), modelled as `MErr.noFragments`. -/
theorem claim_C3_counterexample :
    parse_raw_ng (encodeStream []) = .error .noFragments := by
  rfl

/-- C3 (amended): for N ≥ 1 well-formed fragments (in particular with
8-byte-aligned label lengths, without which the decoder raises), decoding
the encoded stream consumes the whole buffer and returns the LAST record's
object id, the N labels in order, the concatenated vertices as
float32-truncated integers (`.astype(int)`), and the concatenated faces
with the running vertex offset already applied — not N separate fragments
with their wire-local faces. -/
theorem claim_C3_amended (fs : List MeshFragment) (hwf : ∀ f ∈ fs, WFFragment f)
    (hne : fs ≠ []) :
    parse_raw_ng (encodeStream fs) =
      .ok ⟨((fs.getLast hne).objectId : Int), fs.map MeshFragment.label,
           ((fs.map MeshFragment.verts).flatten).map intVert,
           ((decodedRecs 0 fs).map DecRecord.faces).flatten⟩ :=
  parse_raw_ng_encodeStream fs hwf hne

/-- Witness for C3 (amended) at a concrete 2-fragment stream. -/
theorem claim_C3_amended_witness :
    parse_raw_ng (encodeStream
      [⟨1, [65, 66, 67, 68, 69, 70, 71, 72], [(0, 0, 0)], [(0, 0, 0)]⟩,
       ⟨1, [72, 71, 70, 69, 68, 67, 66, 65], [(7, 7, 7)], []⟩]) =
      .ok ⟨(([(⟨1, [65, 66, 67, 68, 69, 70, 71, 72], [(0, 0, 0)], [(0, 0, 0)]⟩ :
               MeshFragment),
             ⟨1, [72, 71, 70, 69, 68, 67, 66, 65], [(7, 7, 7)], []⟩].getLast
               (by decide)).objectId : Int),
           [(⟨1, [65, 66, 67, 68, 69, 70, 71, 72], [(0, 0, 0)], [(0, 0, 0)]⟩ :
               MeshFragment),
            ⟨1, [72, 71, 70, 69, 68, 67, 66, 65], [(7, 7, 7)], []⟩].map MeshFragment.label,
           (([(⟨1, [65, 66, 67, 68, 69, 70, 71, 72], [(0, 0, 0)], [(0, 0, 0)]⟩ :
               MeshFragment),
             ⟨1, [72, 71, 70, 69, 68, 67, 66, 65], [(7, 7, 7)], []⟩].map
               MeshFragment.verts).flatten).map intVert,
           ((decodedRecs 0 [⟨1, [65, 66, 67, 68, 69, 70, 71, 72], [(0, 0, 0)], [(0, 0, 0)]⟩,
             ⟨1, [72, 71, 70, 69, 68, 67, 66, 65], [(7, 7, 7)], []⟩]).map
               DecRecord.faces).flatten⟩ :=
  claim_C3_amended
    [⟨1, [65, 66, 67, 68, 69, 70, 71, 72], [(0, 0, 0)], [(0, 0, 0)]⟩,
     ⟨1, [72, 71, 70, 69, 68, 67, 66, 65], [(7, 7, 7)], []⟩]
    (by decide) (by decide)

/-- C7 (counterexample): the claim says the decoder reports the object id
of each fragment and does not reduce the stream's ids to one record's id.
False: for a stream whose records carry ids 1 and 2, the decoder returns
only `2` — the loop variable left over from the last record — and its
return type carries no other id. -/
theorem claim_C7_counterexample :
    parse_raw_ng (encodeStream [⟨1, [], [(0, 0, 0)], []⟩, ⟨2, [], [], []⟩]) =
      .ok ⟨2, [[], []], [(0, 0, 0)], []⟩ ∧ (1 : Int) ≠ 2 := by
  constructor
  · rfl
  · decide

/-- C7 (amended): the decoder returns a single object id — that of the LAST
record parsed; the ids of earlier records are discarded. -/
theorem claim_C7_amended (fs : List MeshFragment) (hwf : ∀ f ∈ fs, WFFragment f)
    (hne : fs ≠ []) :
    ∃ ps : ParsedStream, parse_raw_ng (encodeStream fs) = .ok ps ∧
      ps.objectId = ((fs.getLast hne).objectId : Int) :=
  ⟨_, parse_raw_ng_encodeStream fs hwf hne, rfl⟩

/-- Witness for C7 (amended) at a concrete 2-record stream. -/
theorem claim_C7_amended_witness :
    ∃ ps : ParsedStream,
      parse_raw_ng (encodeStream [⟨1, [], [(0, 0, 0)], []⟩, ⟨2, [], [], []⟩]) = .ok ps ∧
      ps.objectId = (([(⟨1, [], [(0, 0, 0)], []⟩ : MeshFragment),
        ⟨2, [], [], []⟩].getLast (by decide)).objectId : Int) :=
  claim_C7_amended [⟨1, [], [(0, 0, 0)], []⟩, ⟨2, [], [], []⟩] (by decide) (by decide)

/-- C9: a falsy fragment listing makes `get_fragments` raise the
no-fragments error (`ValueError` in the source, the spec's
`NoFragmentsError`) and `get_meshes_batch` issues no mesh-batch POST (empty
request log); that error is a different kind from a transport error. -/
theorem claim_C9 :
    (∀ respOf, get_meshes_batch (.ok none) respOf = ([], .error .noFragments)) ∧
    (∀ e, (FetchErr.noFragments : FetchErr) ≠ .transport e) := by
  constructor
  · intro respOf
    rfl
  · intro e h
    cases h


/-- C6: with `M ≥ 1` fragments, `get_meshes_batch` slices the fragment list
into exactly `ceil(M/100)` consecutive chunks of at most 100 fragments each
(one fragment key per batch entry), which flatten back to the original list
in order; on all-success responses it issues exactly those chunk payloads as
POSTs, in list order (the functional model makes the resulting numbering
deterministic in the fragment order). -/
theorem claim_C6 (sv : List Nat) (fk : List (List Nat))
    (respOf : Nat → Except Nat (List Nat)) (batches : List (List MeshFragment))
    (hM : 1 ≤ (sv.zip fk).length)
    (hlen : (slices 100 (sv.zip fk)).length = batches.length)
    (hwf : ∀ b ∈ batches, (∀ f ∈ b, WFFragment f) ∧ b ≠ [])
    (hresp : ∀ j, j < batches.length → respOf j = .ok (encodeStream (batches.getD j []))) :
    (slices 100 (sv.zip fk)).length = ((sv.zip fk).length + 99) / 100 ∧
    (∀ c ∈ slices 100 (sv.zip fk), c.length ≤ 100 ∧ (meshPayload c).length ≤ 100 ∧
      ∀ b ∈ meshPayload c, b.2.length = 1) ∧
    (slices 100 (sv.zip fk)).flatten = sv.zip fk ∧
    (get_meshes_batch (.ok (some (sv, fk))) respOf).1 =
      (slices 100 (sv.zip fk)).map meshPayload := by
  refine ⟨?_, ?_, ?_, ?_⟩
  · rw [slices_length]
  · intro c hc
    refine ⟨slices_mem_length_le _ _ _ hc, ?_, ?_⟩
    · rw [show (meshPayload c).length = c.length from List.length_map _ _]
      exact slices_mem_length_le _ _ _ hc
    · intro b hb
      obtain ⟨p, _, rfl⟩ := List.mem_map.mp hb
      rfl
  · exact slices_flatten 100 (by norm_num) _
  · unfold get_meshes_batch get_fragments
    dsimp only
    rw [runChunks_encode_none respOf _ batches hlen hwf hresp]

/-- Witness for C6 at one fragment and one batch. -/
theorem claim_C6_witness :
    (slices 100 ([(1 : Nat)].zip [[(65 : Nat)]])).length =
      (([(1 : Nat)].zip [[(65 : Nat)]]).length + 99) / 100 ∧
    (∀ c ∈ slices 100 ([(1 : Nat)].zip [[(65 : Nat)]]), c.length ≤ 100 ∧
      (meshPayload c).length ≤ 100 ∧ ∀ b ∈ meshPayload c, b.2.length = 1) ∧
    (slices 100 ([(1 : Nat)].zip [[(65 : Nat)]])).flatten = [(1 : Nat)].zip [[(65 : Nat)]] ∧
    (get_meshes_batch (.ok (some ([1], [[65]])))
        (fun _ => .ok (encodeStream [⟨1, [65, 66, 67, 68, 69, 70, 71, 72],[], []⟩]))).1 =
      (slices 100 ([(1 : Nat)].zip [[(65 : Nat)]])).map meshPayload :=
  claim_C6 [1] [[65]] (fun _ => .ok (encodeStream [⟨1, [65, 66, 67, 68, 69, 70, 71, 72],[], []⟩]))
    [[⟨1, [65, 66, 67, 68, 69, 70, 71, 72],[], []⟩]] (by decide) (by decide) (by decide)
    (fun j hj => by
      have hj0 : j = 0 := by
        simp at hj
        omega
      subst hj0
      rfl)

/-- C8: if the transport raises on the `j`-th mesh-batch POST (earlier
batches succeeding and decoding), `get_meshes_batch` surfaces exactly that
transport error, unchanged and wrapped in no other handling, before any
decode of that response; the request log shows each of the first `j + 1`
chunks POSTed exactly once and nothing after — in particular the failing
request is never retried. -/
theorem claim_C8 (sv : List Nat) (fk : List (List Nat))
    (respOf : Nat → Except Nat (List Nat)) (j e : Nat)
    (hj : j < (slices 100 (sv.zip fk)).length)
    (hok : ∀ i, i < j → ∃ bs ps, respOf i = .ok bs ∧ parse_raw_ng bs = .ok ps)
    (herr : respOf j = .error e) :
    get_meshes_batch (.ok (some (sv, fk))) respOf =
      (((slices 100 (sv.zip fk)).take (j + 1)).map meshPayload, .error (.transport e)) ∧
    (((slices 100 (sv.zip fk)).take (j + 1)).map meshPayload).length = j + 1 := by
  constructor
  · unfold get_meshes_batch get_fragments
    dsimp only
    exact runChunks_error_at respOf _ 0 none j e hj (by simpa using hok) (by simpa using herr)
  · rw [List.length_map, List.length_take]
    omega

/-- Witness for C8 at a transport failing on the first batch. -/
theorem claim_C8_witness :
    (get_meshes_batch (.ok (some ([1], [[65]]))) (fun _ => .error 500) =
      (((slices 100 ([(1 : Nat)].zip [[(65 : Nat)]])).take (0 + 1)).map meshPayload,
       .error (.transport 500)) ∧
    (((slices 100 ([(1 : Nat)].zip [[(65 : Nat)]])).take (0 + 1)).map meshPayload).length =
      0 + 1) :=
  claim_C8 [1] [[65]] (fun _ => .error 500) 0 500 (by decide)
    (fun i hi => absurd hi (by omega)) rfl

/-- C2: the composed pipeline (per-batch decode with intra-batch offsets,
then cross-batch merge with the accumulated vertex count) puts every face of
the k-th fragment — counting fragments across all batches in processing
order — in the half-open interval from the vertex-count prefix sum before it
to the prefix sum including it, provided its wire indices are in
`[0, v_k)`; hence every face index of the merged mesh is in
`[0, len(vertices))`. -/
theorem claim_C2 (sv : List Nat) (fk : List (List Nat))
    (respOf : Nat → Except Nat (List Nat)) (batches : List (List MeshFragment))
    (hlen : (slices 100 (sv.zip fk)).length = batches.length)
    (hwf : ∀ b ∈ batches, (∀ f ∈ b, WFFragment f) ∧ b ≠ [])
    (hresp : ∀ j, j < batches.length → respOf j = .ok (encodeStream (batches.getD j [])))
    (hrange : ∀ f ∈ batches.flatten, ∀ t ∈ f.faces,
      t.1 < f.verts.length ∧ t.2.1 < f.verts.length ∧ t.2.2 < f.verts.length) :
    ∃ V F, (get_meshes_batch (.ok (some (sv, fk))) respOf).2 = .ok (V, F) ∧
      V.length = sumVerts batches.flatten ∧
      F = ((decodedRecs 0 batches.flatten).map DecRecord.faces).flatten ∧
      (∀ k, k < batches.flatten.length →
        ∀ t ∈ ((decodedRecs 0 batches.flatten).getD k dRec).faces,
          ((sumVerts (batches.flatten.take k) : Int) ≤ t.1 ∧
            t.1 < (sumVerts (batches.flatten.take (k + 1)) : Int)) ∧
          ((sumVerts (batches.flatten.take k) : Int) ≤ t.2.1 ∧
            t.2.1 < (sumVerts (batches.flatten.take (k + 1)) : Int)) ∧
          ((sumVerts (batches.flatten.take k) : Int) ≤ t.2.2 ∧
            t.2.2 < (sumVerts (batches.flatten.take (k + 1)) : Int))) ∧
      (∀ t ∈ F, ((0 : Int) ≤ t.1 ∧ t.1 < (V.length : Int)) ∧
        ((0 : Int) ≤ t.2.1 ∧ t.2.1 < (V.length : Int)) ∧
        ((0 : Int) ≤ t.2.2 ∧ t.2.2 < (V.length : Int))) := by
  have hres : (get_meshes_batch (.ok (some (sv, fk))) respOf).2 =
      .ok (intVertsOf batches.flatten, facesOf batches.flatten) := by
    unfold get_meshes_batch get_fragments
    dsimp only
    rw [runChunks_encode_none respOf _ batches hlen hwf hresp]
  have hblocks : ∀ k, k < batches.flatten.length →
      ∀ t ∈ ((decodedRecs 0 batches.flatten).getD k dRec).faces,
        ((sumVerts (batches.flatten.take k) : Int) ≤ t.1 ∧
          t.1 < (sumVerts (batches.flatten.take (k + 1)) : Int)) ∧
        ((sumVerts (batches.flatten.take k) : Int) ≤ t.2.1 ∧
          t.2.1 < (sumVerts (batches.flatten.take (k + 1)) : Int)) ∧
        ((sumVerts (batches.flatten.take k) : Int) ≤ t.2.2 ∧
          t.2.2 < (sumVerts (batches.flatten.take (k + 1)) : Int)) := by
    intro k hk t ht
    rw [decodedRecs_getD 0 batches.flatten k hk] at ht
    dsimp only at ht
    obtain ⟨t1, ht1, rfl⟩ := List.mem_map.mp ht
    obtain ⟨w, hw, rfl⟩ := List.mem_map.mp ht1
    have hfmem : batches.flatten.getD k dFrag ∈ batches.flatten :=
      getD_mem_of_lt _ k dFrag hk
    obtain ⟨hw1, hw2, hw3⟩ := hrange _ hfmem w hw
    rw [sumVerts_take_succ _ k hk]
    simp only [shiftTriple, intTriple, Nat.zero_add]
    push_cast
    refine ⟨⟨by omega, by omega⟩, ⟨by omega, by omega⟩, by omega⟩
  refine ⟨intVertsOf batches.flatten, facesOf batches.flatten, hres,
    intVertsOf_length _, rfl, hblocks, ?_⟩
  intro t ht
  rw [show facesOf batches.flatten =
      ((decodedRecs 0 batches.flatten).map DecRecord.faces).flatten from rfl,
    List.mem_flatten] at ht
  obtain ⟨l, hl, htl⟩ := ht
  obtain ⟨rec, hrec, rfl⟩ := List.mem_map.mp hl
  obtain ⟨k, hklt, hkeq⟩ := List.mem_iff_getElem.mp hrec
  have hklen : k < batches.flatten.length := by
    rwa [decodedRecs_length] at hklt
  have hgetd : (decodedRecs 0 batches.flatten).getD k dRec = rec := by
    rw [List.getD_eq_getElem?_getD, List.getElem?_eq_getElem hklt]
    simpa using hkeq
  have hb := hblocks k hklen t (by rw [hgetd]; exact htl)
  have hle : sumVerts (batches.flatten.take (k + 1)) ≤ sumVerts batches.flatten :=
    sumVerts_take_le _ _
  rw [intVertsOf_length]
  obtain ⟨⟨ha1, hb1⟩, ⟨ha2, hb2⟩, ha3, hb3⟩ := hb
  have hnn : (0 : Int) ≤ (sumVerts (batches.flatten.take k) : Int) := by positivity
  refine ⟨⟨by omega, by omega⟩, ⟨by omega, by omega⟩, by omega, by omega⟩

/-- Witness for C2 at one batch of one fragment with an in-range face. -/
theorem claim_C2_witness :
    ∃ V F, (get_meshes_batch (.ok (some ([1], [[65]])))
        (fun _ => .ok (encodeStream [⟨1, [65, 66, 67, 68, 69, 70, 71, 72],[(0, 0, 0)], [(0, 0, 0)]⟩]))).2 =
        .ok (V, F) ∧
      V.length = sumVerts [[(⟨1, [65, 66, 67, 68, 69, 70, 71, 72],[(0, 0, 0)], [(0, 0, 0)]⟩ : MeshFragment)]].flatten ∧
      F = ((decodedRecs 0 [[(⟨1, [65, 66, 67, 68, 69, 70, 71, 72],[(0, 0, 0)], [(0, 0, 0)]⟩ : MeshFragment)]].flatten).map
        DecRecord.faces).flatten ∧
      (∀ k, k < [[(⟨1, [65, 66, 67, 68, 69, 70, 71, 72],[(0, 0, 0)], [(0, 0, 0)]⟩ : MeshFragment)]].flatten.length →
        ∀ t ∈ ((decodedRecs 0
            [[(⟨1, [65, 66, 67, 68, 69, 70, 71, 72],[(0, 0, 0)], [(0, 0, 0)]⟩ : MeshFragment)]].flatten).getD k dRec).faces,
          ((sumVerts ([[(⟨1, [65, 66, 67, 68, 69, 70, 71, 72],[(0, 0, 0)], [(0, 0, 0)]⟩ : MeshFragment)]].flatten.take k) :
              Int) ≤ t.1 ∧
            t.1 < (sumVerts ([[(⟨1, [65, 66, 67, 68, 69, 70, 71, 72],[(0, 0, 0)], [(0, 0, 0)]⟩ :
              MeshFragment)]].flatten.take (k + 1)) : Int)) ∧
          ((sumVerts ([[(⟨1, [65, 66, 67, 68, 69, 70, 71, 72],[(0, 0, 0)], [(0, 0, 0)]⟩ :
              MeshFragment)]].flatten.take k) : Int) ≤ t.2.1 ∧
            t.2.1 < (sumVerts ([[(⟨1, [65, 66, 67, 68, 69, 70, 71, 72],[(0, 0, 0)], [(0, 0, 0)]⟩ :
              MeshFragment)]].flatten.take (k + 1)) : Int)) ∧
          ((sumVerts ([[(⟨1, [65, 66, 67, 68, 69, 70, 71, 72],[(0, 0, 0)], [(0, 0, 0)]⟩ :
              MeshFragment)]].flatten.take k) : Int) ≤ t.2.2 ∧
            t.2.2 < (sumVerts ([[(⟨1, [65, 66, 67, 68, 69, 70, 71, 72],[(0, 0, 0)], [(0, 0, 0)]⟩ :
              MeshFragment)]].flatten.take (k + 1)) : Int))) ∧
      (∀ t ∈ F, ((0 : Int) ≤ t.1 ∧ t.1 < (V.length : Int)) ∧
        ((0 : Int) ≤ t.2.1 ∧ t.2.1 < (V.length : Int)) ∧
        ((0 : Int) ≤ t.2.2 ∧ t.2.2 < (V.length : Int))) :=
  claim_C2 [1] [[65]] (fun _ => .ok (encodeStream [⟨1, [65, 66, 67, 68, 69, 70, 71, 72],[(0, 0, 0)], [(0, 0, 0)]⟩]))
    [[⟨1, [65, 66, 67, 68, 69, 70, 71, 72],[(0, 0, 0)], [(0, 0, 0)]⟩]] (by decide) (by decide)
    (fun j hj => by
      have hj0 : j = 0 := by
        simp at hj
        omega
      subst hj0
      rfl)
    (by decide)


/-- C5 (counterexample): the claim says each serially dispatched sub-chunk
request is retried up to a configured maximum number of attempts on
non-success status.  False: the source has no retry loop — every job is
POSTed exactly once, so the engine only ever sees the transport's first
attempt.  With an attempt-indexed transport failing on attempt 0 and
succeeding afterwards, the call fails, while the spec's retry dispatcher
(`get_seg_at_location_retry`, 2 attempts) succeeds on the same transport. -/
theorem claim_C5_counterexample :
    ((get_seg_at_location 10 [((0 : Int), 0, 0)] []
        (fun j => (fun a => if a = 0 then Except.error 500 else .ok (some [5])) 0)).2 =
      .error (.transport 500)) ∧
    ((get_seg_at_location_retry 2 [((0 : Int), 0, 0)] []
        (fun _ a => if a = 0 then Except.error 500 else .ok (some [5]))).2 =
      .ok [5]) := by
  constructor
  · rfl
  · rfl

/-- C5 (amended): `get_seg_at_location` dispatches every sub-chunk request
exactly once — the request log is exactly the job posts, with no retry —
and if any job's response has a non-success status or lacks the
`uint64StrList.values` shape, the entire call raises: no SegmentationResult
is returned. -/
theorem claim_C5_amended (W : Nat) (coords : List Coord) (kmeansLabels : List Nat)
    (respOf : Nat → Except Nat (Option (List Nat)))
    (hfail : ∃ j, j < (segPosts coords (segIxs coords.length
        (segLabels coords.length kmeansLabels))).length ∧
      ((∃ e, respOf j = .error e) ∨ respOf j = .ok none)) :
    (get_seg_at_location W coords kmeansLabels respOf).1 =
      segPosts coords (segIxs coords.length (segLabels coords.length kmeansLabels)) ∧
    ∀ r, (get_seg_at_location W coords kmeansLabels respOf).2 ≠ .ok r := by
  constructor
  · rfl
  · intro r hr
    obtain ⟨j, hj, hbad⟩ := hfail
    unfold get_seg_at_location at hr
    dsimp only at hr
    have hjmem : respOf j ∈ (List.range (segPosts coords (segIxs coords.length
        (segLabels coords.length kmeansLabels))).length).map respOf :=
      List.mem_map_of_mem respOf (List.mem_range.mpr hj)
    cases hfse : firstStatusErr ((List.range (segPosts coords (segIxs coords.length
        (segLabels coords.length kmeansLabels))).length).map respOf) with
    | some e =>
      rw [hfse] at hr
      exact absurd hr (by simp)
    | none =>
      rcases hbad with ⟨e, he⟩ | hnone
      · exact firstStatusErr_none_no_error _ hfse _ hjmem e he
      · obtain ⟨e', he'⟩ := extractVals_err_of_mem_none _ hfse (hnone ▸ hjmem)
        rw [hfse] at hr
        dsimp only at hr
        rw [he'] at hr
        dsimp only at hr
        exact absurd hr (by simp)

/-- Witness for C5 (amended) with one job whose response is a 404. -/
theorem claim_C5_amended_witness :
    (get_seg_at_location 1 [((0 : Int), 0, 0)] [] (fun _ => .error 404)).1 =
      segPosts [((0 : Int), 0, 0)] (segIxs [((0 : Int), 0, 0)].length
        (segLabels [((0 : Int), 0, 0)].length [])) ∧
    ∀ r, (get_seg_at_location 1 [((0 : Int), 0, 0)] [] (fun _ => .error 404)).2 ≠ .ok r :=
  claim_C5_amended 1 [((0 : Int), 0, 0)] [] (fun _ => .error 404)
    ⟨0, by decide, Or.inl ⟨404, rfl⟩⟩

/-- C4 (counterexample): the claim says each result entry is the label the
service returned for that coordinate.  False for labels at or above `2^53`:
the labels travel through the float64 `np.zeros` buffer, so the service
label `2^53 + 1` comes back as `2^53`. -/
theorem claim_C4_counterexample :
    (get_seg_at_location 10 [((0 : Int), 0, 0)] []
        (fun _ => .ok (some [2 ^ 53 + 1]))).2 = .ok [(2 ^ 53 : Int)] ∧
    (2 ^ 53 : Int) ≠ ((2 ^ 53 + 1 : Nat) : Int) := by
  constructor
  · have h : (get_seg_at_location 10 [((0 : Int), 0, 0)] []
        (fun _ => .ok (some [2 ^ 53 + 1]))).2 =
        .ok [i64cast ((f64round (2 ^ 53 + 1) : Nat) : Int)] := rfl
    rw [h, f64round_boundary, i64cast_coe_of_lt _ (by norm_num)]
    norm_num
  · push_cast

/-- C4 (amended): with well-formed cluster labels, a service answering
each POST with the per-coordinate labels of an oracle `L`, and every
float64-rounded label below `2^63` (so the final `.astype(int)` cast,
fetch.py line 542, is exact — above that the int64 cast is invalid),
`get_seg_at_location` returns one entry per input coordinate, in input
order, each the float64-rounded label of its coordinate (exact below
`2^53`, and `0` for unmapped, since `f64round 0 = 0`); the result does not
depend on `max_threads`, and the index-addressed scatter is invariant under
any permutation of the job processing order. -/
theorem claim_C4_amended (W : Nat) (coords : List Coord) (kmeansLabels : List Nat)
    (L : Coord → Nat) (respOf : Nat → Except Nat (Option (List Nat)))
    (hkm : 1 < nChunks coords.length → WFLabels coords.length kmeansLabels)
    (hresp : ∀ j, j < (segPosts coords (segIxs coords.length
        (segLabels coords.length kmeansLabels))).length →
      respOf j = .ok (some (((segPosts coords (segIxs coords.length
        (segLabels coords.length kmeansLabels))).getD j []).map L)))
    (hcast : ∀ c, f64round (L c) < 2 ^ 63) :
    (∃ r, (get_seg_at_location W coords kmeansLabels respOf).2 = .ok r ∧
      r.length = coords.length ∧
      ∀ j, j < coords.length →
        r.getD j 0 = ((f64round (L (coords.getD j (0, 0, 0)))) : Int)) ∧
    (∀ W', get_seg_at_location W' coords kmeansLabels respOf =
      get_seg_at_location W coords kmeansLabels respOf) ∧
    (∀ jobs', ((segIxs coords.length (segLabels coords.length kmeansLabels)).zip
        ((segPosts coords (segIxs coords.length (segLabels coords.length
          kmeansLabels))).map (fun p => p.map L))).Perm jobs' →
      scatterJobs (List.replicate coords.length 0) jobs' =
        scatterJobs (List.replicate coords.length 0)
          ((segIxs coords.length (segLabels coords.length kmeansLabels)).zip
            ((segPosts coords (segIxs coords.length (segLabels coords.length
              kmeansLabels))).map (fun p => p.map L)))) := by
  refine ⟨get_seg_ok W coords kmeansLabels L respOf hkm hresp hcast, fun _ => rfl, ?_⟩
  intro jobs' hperm
  rw [segZip_eq] at hperm ⊢
  have hlen1 : ∀ p ∈ (segIxs coords.length (segLabels coords.length kmeansLabels)).map
      (fun ix => (ix, ix.map (fun j => L (coords.getD j (0, 0, 0))))),
      p.2.length = p.1.length := by
    intro p hp
    obtain ⟨ix, _, rfl⟩ := List.mem_map.mp hp
    exact List.length_map _ _
  rw [scatterJobs_eq_writePairs jobs' _ (fun p hp => hlen1 p ((hperm.mem_iff).mpr hp)),
    scatterJobs_eq_writePairs _ _ hlen1]
  have h1 : ((((segIxs coords.length (segLabels coords.length kmeansLabels)).map
      (fun ix => (ix, ix.map (fun j => L (coords.getD j (0, 0, 0)))))).map
        (fun p => p.1.zip p.2)).flatten).Perm
      ((jobs'.map (fun p => p.1.zip p.2)).flatten) :=
    (hperm.map _).flatten
  have hnd : (((((segIxs coords.length (segLabels coords.length kmeansLabels)).map
      (fun ix => (ix, ix.map (fun j => L (coords.getD j (0, 0, 0)))))).map
        (fun p => p.1.zip p.2)).flatten).map Prod.fst).Nodup := by
    rw [segJobs_pairs]
    exact segPairs_fst_nodup _ _ _
  have h2 := writePairs_perm h1 (List.replicate coords.length 0) hnd
  rw [h2]

/-- Witness for C4 (amended) on one coordinate with label 7. -/
theorem claim_C4_amended_witness :
    (∃ r, (get_seg_at_location 1 [((0 : Int), 0, 0)] []
        (fun _ => .ok (some [7]))).2 = .ok r ∧
      r.length = [((0 : Int), 0, 0)].length ∧
      ∀ j, j < [((0 : Int), 0, 0)].length →
        r.getD j 0 =
          ((f64round ((fun _ : Coord => 7) ([((0 : Int), 0, 0)].getD j (0, 0, 0)))) : Int)) ∧
    (∀ W', get_seg_at_location W' [((0 : Int), 0, 0)] [] (fun _ => .ok (some [7])) =
      get_seg_at_location 1 [((0 : Int), 0, 0)] [] (fun _ => .ok (some [7]))) ∧
    (∀ jobs', ((segIxs [((0 : Int), 0, 0)].length
        (segLabels [((0 : Int), 0, 0)].length [])).zip
        ((segPosts [((0 : Int), 0, 0)] (segIxs [((0 : Int), 0, 0)].length
          (segLabels [((0 : Int), 0, 0)].length []))).map
            (fun p => p.map (fun _ : Coord => 7)))).Perm jobs' →
      scatterJobs (List.replicate [((0 : Int), 0, 0)].length 0) jobs' =
        scatterJobs (List.replicate [((0 : Int), 0, 0)].length 0)
          ((segIxs [((0 : Int), 0, 0)].length
            (segLabels [((0 : Int), 0, 0)].length [])).zip
            ((segPosts [((0 : Int), 0, 0)] (segIxs [((0 : Int), 0, 0)].length
              (segLabels [((0 : Int), 0, 0)].length []))).map
                (fun p => p.map (fun _ : Coord => 7))))) :=
  claim_C4_amended 1 [((0 : Int), 0, 0)] [] (fun _ => 7) (fun _ => .ok (some [7]))
    (fun h => absurd h (by decide))
    (fun j hj => by
      have hj0 : j = 0 := by
        have h1 : j < 1 := lt_of_lt_of_le hj (by decide)
        omega
      subst hj0
      rfl)
    (fun c => by
      show f64round 7 < 2 ^ 63
      rw [f64round_of_lt 7 (by norm_num)]
      norm_num)

/-- C10: every returned label passes through the pre-allocated float64
buffer: with each rounded label inside the `int64` range (so the final
`.astype(int)` is exact), each entry is `f64round` of the service label,
hence equals the label exactly iff that label is representable in binary64
(in particular always when it is below `2^53`); labels at or above `2^53`
may come back rounded — `2^53 + 1` does. -/
theorem claim_C10 (W : Nat) (coords : List Coord) (kmeansLabels : List Nat)
    (L : Coord → Nat) (respOf : Nat → Except Nat (Option (List Nat)))
    (hkm : 1 < nChunks coords.length → WFLabels coords.length kmeansLabels)
    (hresp : ∀ j, j < (segPosts coords (segIxs coords.length
        (segLabels coords.length kmeansLabels))).length →
      respOf j = .ok (some (((segPosts coords (segIxs coords.length
        (segLabels coords.length kmeansLabels))).getD j []).map L)))
    (hbound : ∀ c, f64round (L c) < 2 ^ 63) :
    ∃ r, (get_seg_at_location W coords kmeansLabels respOf).2 = .ok r ∧
      (∀ j, j < coords.length →
        r.getD j 0 = ((f64round (L (coords.getD j (0, 0, 0)))) : Int) ∧
        (r.getD j 0 = ((L (coords.getD j (0, 0, 0))) : Int) ↔
          f64exactInt (L (coords.getD j (0, 0, 0)))) ∧
        (L (coords.getD j (0, 0, 0)) < 2 ^ 53 →
          r.getD j 0 = ((L (coords.getD j (0, 0, 0))) : Int))) ∧
      f64round (2 ^ 53 + 1) = 2 ^ 53 := by
  obtain ⟨r, hr, _, hval⟩ := get_seg_ok W coords kmeansLabels L respOf hkm hresp hbound
  refine ⟨r, hr, ?_, f64round_boundary⟩
  intro j hj
  refine ⟨hval j hj, ?_, ?_⟩
  · rw [hval j hj, Nat.cast_inj]
    exact f64round_eq_self_iff _
  · intro hlt
    rw [hval j hj, f64round_of_lt _ hlt]

/-- Witness for C10 on one coordinate with label 7. -/
theorem claim_C10_witness :
    ∃ r, (get_seg_at_location 1 [((0 : Int), 0, 0)] []
        (fun _ => .ok (some [7]))).2 = .ok r ∧
      (∀ j, j < [((0 : Int), 0, 0)].length →
        r.getD j 0 =
          ((f64round ((fun _ : Coord => 7) ([((0 : Int), 0, 0)].getD j (0, 0, 0)))) : Int) ∧
        (r.getD j 0 = (((fun _ : Coord => 7) ([((0 : Int), 0, 0)].getD j (0, 0, 0))) : Int) ↔
          f64exactInt ((fun _ : Coord => 7) ([((0 : Int), 0, 0)].getD j (0, 0, 0)))) ∧
        ((fun _ : Coord => 7) ([((0 : Int), 0, 0)].getD j (0, 0, 0)) < 2 ^ 53 →
          r.getD j 0 =
            (((fun _ : Coord => 7) ([((0 : Int), 0, 0)].getD j (0, 0, 0))) : Int))) ∧
      f64round (2 ^ 53 + 1) = 2 ^ 53 :=
  claim_C10 1 [((0 : Int), 0, 0)] [] (fun _ => 7) (fun _ => .ok (some [7]))
    (fun h => absurd h (by decide))
    (fun j hj => by
      have hj0 : j = 0 := by
        have h1 : j < 1 := lt_of_lt_of_le hj (by decide)
        omega
      subst hj0
      rfl)
    (fun c => by
      show f64round 7 < 2 ^ 63
      rw [f64round_of_lt 7 (by norm_num)]
      norm_num)

end Brainmappy
